import Mathlib

/-!
Verification of the sippet SIP-message parser (`c_src/parser.cc`,
`c_src/utils.cc`, `c_src/tokenizer.h`) against its natural-language
specification.  Byte strings are modelled as `List Char`
(ISO-8859-1: one byte per `Char`); the Erlang terms built through the
NIF API are modelled by the inductive `Term` below.
-/

set_option maxRecDepth 20000

namespace Sippet

/-- `ToLowerASCII` (utils.cc): ASCII-only lower-casing of one byte. -/
def toLowerASCII (c : Char) : Char :=
  if 'A' ≤ c ∧ c ≤ 'Z' then Char.ofNat (c.toNat + 32) else c

/-- `IsLWS` (utils.cc): `strchr(SIP_LWS, c) != NULL` with `SIP_LWS = " \t"`.
`strchr` also matches the terminating NUL of the searched string, so the
NUL byte satisfies this predicate as well. -/
def isLWSc (c : Char) : Bool := c = ' ' || c = '\t' || c = '\x00'

/-- The character set of `Tokenizer::Skip(SIP_LWS)` / `SkipNotIn(SIP_LWS ...)`:
a `StringPiece` over the two bytes of `" \t"` (no NUL, unlike `IsLWS`). -/
def isTokLWS (c : Char) : Bool := c = ' ' || c = '\t'

/-- `isdigit` from `<ctype.h>` on a byte. -/
def isDigitB (c : Char) : Bool := '0' ≤ c && c ≤ '9'

/-- `isspace` from `<ctype.h>` on a byte (C locale), as used by
`StringToInt`'s leading-whitespace scan. -/
def isSpaceB (c : Char) : Bool :=
  c = ' ' || c = '\t' || c = '\n' || c = '\x0b' || c = '\x0c' || c = '\r'

/-- `IsTokenChar` (utils.cc): RFC 2616 token characters.  The excluded
punctuation bytes are written numerically: `( ) < > @ , ; : \ " / [ ] ? =`,
the two brace bytes `0x7b`/`0x7d`, space and horizontal tab. -/
def isTokenChar (c : Char) : Bool :=
  let n := c.toNat
  !(n ≥ 0x80 || n ≤ 0x1F || n = 0x7F ||
    n = 0x28 || n = 0x29 || n = 0x3C || n = 0x3E || n = 0x40 ||
    n = 0x2C || n = 0x3B || n = 0x3A || n = 0x5C || n = 0x22 ||
    n = 0x2F || n = 0x5B || n = 0x5D || n = 0x3F || n = 0x3D ||
    n = 0x7B || n = 0x7D || n = 0x20 || n = 0x09)

/-- `IsToken` (utils.cc): nonempty and all bytes are token characters. -/
def isTokenStr (l : List Char) : Bool := !l.isEmpty && l.all isTokenChar

/-- `IsQuote` (utils.cc): double quote (0x22) or single quote (0x27). -/
def isQuoteB (c : Char) : Bool := c = '"' || c = '\''

/-- The first byte, if any, is not LWS. -/
def headNotLWS (v : List Char) : Bool :=
  match v.head? with
  | some c => !isLWSc c
  | none => true

/-- `TrimLWS` (utils.cc): strip `IsLWS` bytes from both ends. -/
def trimLWS (l : List Char) : List Char :=
  ((l.dropWhile isLWSc).reverse.dropWhile isLWSc).reverse

/-- Numeric value of a decimal digit run. -/
def digitsVal (l : List Char) : Nat :=
  l.foldl (fun a c => a * 10 + (c.toNat - 48)) 0

/-- `StringToInt` (utils.cc): "perfect" decimal conversion to a 32-bit
`int`.  Fails on the empty string, leading whitespace, any non-digit after
the optional sign, and overflow/underflow of the `int` range; the per-digit
bound check of `IteratorRangeToNumber` is equivalent to comparing the full
value against the bound. -/
def stringToInt (s : List Char) : Option Int :=
  match s with
  | [] => none
  | c :: rest =>
    if isSpaceB c then none
    else if c = '-' then
      if !rest.isEmpty && rest.all isDigitB && digitsVal rest ≤ 2 ^ 31 then
        some (-(digitsVal rest : Int))
      else none
    else if c = '+' then
      if !rest.isEmpty && rest.all isDigitB && digitsVal rest ≤ 2 ^ 31 - 1 then
        some (digitsVal rest)
      else none
    else
      if s.all isDigitB && digitsVal s ≤ 2 ^ 31 - 1 then
        some (digitsVal s)
      else none

/-- Erlang terms as built through `enif_make_*` in parser.cc.  Proper lists
are cons cells ending in `nil` (`enif_make_list_cell`); the only tuples the
parser builds are 2-tuples and the empty tuple.  Erlang maps are modelled as
insertion-ordered key/value chains whose put updates an existing key in
place (`enif_make_map_put`). -/
inductive Term where
  | atom : List Char → Term
  | str : List Char → Term
  | int : Int → Term
  | tup0 : Term
  | tup2 : Term → Term → Term
  | nil : Term
  | cons : Term → Term → Term
  | mnil : Term
  | mcons : Term → Term → Term → Term
deriving DecidableEq, Repr

/-- Build a modelled Erlang list from a Lean list of terms. -/
def Term.ofList : List Term → Term
  | [] => .nil
  | t :: r => .cons t (Term.ofList r)

/-- Build a modelled Erlang map from ordered key/value pairs. -/
def Term.ofMap : List (Term × Term) → Term
  | [] => .mnil
  | (k, v) :: r => .mcons k v (Term.ofMap r)

/-- `enif_get_map_value`: look a key up in a modelled Erlang map. -/
def mapGet (m : Term) (k : Term) : Option Term :=
  match m with
  | .mcons k' v r => if k' = k then some v else mapGet r k
  | _ => none

/-- `enif_make_map_put`: update an existing key in place, else append. -/
def mapPut (m : Term) (k v : Term) : Term :=
  match m with
  | .mcons k' v' r => if k' = k then .mcons k' v r else .mcons k' v' (mapPut r k v)
  | _ => .mcons k v .mnil

/-- `enif_is_list` on a modelled term (nil or a cons cell). -/
def Term.isList : Term → Bool
  | .nil => true
  | .cons _ _ => true
  | _ => false

/-- `enif_is_atom` on a modelled term. -/
def Term.isAtom : Term → Bool
  | .atom _ => true
  | _ => false

/-- The elements of a modelled Erlang list, as iterated by
`enif_get_list_cell` (a non-list term yields no cells). -/
def Term.cells : Term → List Term
  | .cons t r => t :: Term.cells r
  | _ => []

/-- A byte is one of the two line-break bytes CR / LF. -/
def isCRLFb (c : Char) : Bool := c = '\r' || c = '\n'

/-- `AssembleRawHeaders` (parser.cc), processed byte by byte: ordinary bytes
are copied; a bare LF or a CRLF pair ends a physical line; a CR not followed
by LF fails (`none`), including a CR that is the last input byte, where the
C code compares the `std::string` NUL sentinel against LF.  After a
terminator, a following LWS byte (`IsLWS`) folds the next physical line into
the current logical line (no separator emitted); otherwise a single `'\n'`
separator is emitted.  End of input emits nothing. -/
def assembleRaw : List Char → Option (List Char)
  | [] => some []
  | '\n' :: r =>
    match r with
    | [] => some []
    | d :: _ =>
      if isLWSc d then assembleRaw r
      else (assembleRaw r).map (fun o => '\n' :: o)
  | '\r' :: r =>
    match r with
    | '\n' :: r' =>
      match r' with
      | [] => some []
      | d :: _ =>
        if isLWSc d then assembleRaw r'
        else (assembleRaw r').map (fun o => '\n' :: o)
    | _ => none
  | c :: r => (assembleRaw r).map (fun o => c :: o)

/-- Replace every (leftmost, non-overlapping) CRLF byte pair by a bare LF. -/
def replaceCRLF : List Char → List Char
  | '\r' :: '\n' :: r => '\n' :: replaceCRLF r
  | c :: r => c :: replaceCRLF r
  | [] => []

/-- Every CR byte of the input is immediately followed by LF. -/
def noLoneCR : List Char → Bool
  | [] => true
  | '\r' :: r =>
    match r with
    | '\n' :: _ => noLoneCR r
    | _ => false
  | _ :: r => noLoneCR r

/-- Maximal runs of non-delimiter bytes, in order, empty runs dropped
(`cur` accumulates the current run in reverse). -/
def splitRunsAux (d : Char → Bool) (cur : List Char) : List Char → List (List Char)
  | [] => if cur.isEmpty then [] else [cur.reverse]
  | c :: r =>
    if d c then
      if cur.isEmpty then splitRunsAux d [] r
      else cur.reverse :: splitRunsAux d [] r
    else splitRunsAux d (c :: cur) r

/-- Split a byte string into its maximal non-delimiter runs. -/
def splitRuns (d : Char → Bool) (s : List Char) : List (List Char) :=
  splitRunsAux d [] s

/-- Scanner state of the quote-aware tokenizer: outside any quoted region,
or inside a region opened by a given quote byte, with a pending
backslash-escape flag. -/
inductive QState where
  | out : QState
  | inQ : Char → Bool → QState
deriving DecidableEq, Repr

/-- Modelled from the spec: the quote-aware `StringTokenizer`
(string_tokenizer.h, not under src/), per §4.2: a split on a delimiter set
in which a quoted region starts at a quote byte and ends at the matching
unescaped quote; while inside, delimiters are ignored and a backslash
consumes the following byte.  Tokens are the byte runs between top-level
delimiters (empty tokens included; every call site discards empty tokens
again, so this choice is observationally irrelevant). -/
def splitQAAux (delim : Char → Bool) (quote : Char → Bool)
    (st : QState) (cur : List Char) : List Char → List (List Char)
  | [] => [cur.reverse]
  | c :: r =>
    match st with
    | .out =>
      if delim c then cur.reverse :: splitQAAux delim quote .out [] r
      else if quote c then splitQAAux delim quote (.inQ c false) (c :: cur) r
      else splitQAAux delim quote .out (c :: cur) r
    | .inQ q esc =>
      if esc then splitQAAux delim quote (.inQ q false) (c :: cur) r
      else if c = q then splitQAAux delim quote .out (c :: cur) r
      else if c = '\\' then splitQAAux delim quote (.inQ q true) (c :: cur) r
      else splitQAAux delim quote (.inQ q false) (c :: cur) r

/-- `ValuesIterator` (utils.cc): split on a delimiter, quote-aware with
quote bytes `"` and `'`, each piece LWS-trimmed and empty pieces skipped. -/
def splitValues (delim : Char → Bool) (s : List Char) : List (List Char) :=
  ((splitQAAux delim isQuoteB .out [] s).map trimLWS).filter (fun v => !v.isEmpty)

/-- The quoted-pair unescaping loop of `UnquoteImpl` (utils.cc): a backslash
not itself escaped is dropped and escapes the next byte. -/
def unquoteBody (esc : Bool) : List Char → List Char
  | [] => []
  | c :: r =>
    if c = '\\' && !esc then unquoteBody true r
    else c :: unquoteBody false r

/-- `Unquote` (utils.cc), lenient mode: strips matching surrounding quote
bytes (length at least 2) and unescapes quoted-pairs; any other input is
returned verbatim. -/
def unquote (s : List Char) : List Char :=
  match s with
  | [] => []
  | c :: rest =>
    if isQuoteB c ∧ s.length ≥ 2 ∧ s.getLast? = some c then
      unquoteBody false rest.dropLast
    else s

/-- `GenericParametersIterator::GetNext` (utils.cc): split one `;`-piece at
its first `=`; an `=` that is absent or at position 0 makes the whole piece
the name and the value empty.  Both sides are LWS-trimmed. -/
def gpSplit (v : List Char) : List Char × List Char :=
  let n0 := v.takeWhile (fun c => c ≠ '=')
  let rest := v.dropWhile (fun c => c ≠ '=')
  if !rest.isEmpty && !n0.isEmpty then (trimLWS n0, trimLWS (rest.drop 1))
  else (trimLWS v, [])

/-- The quote handling of `GenericParametersIterator::GetNext`: a value
starting with a quote byte is unquoted when its last byte matches and the
length exceeds 1; otherwise only the leading quote byte is dropped. -/
def gpValue (val : List Char) : List Char :=
  match val with
  | [] => []
  | c :: _ =>
    if isQuoteB c then
      if val.getLast? ≠ some c ∨ val.length = 1 then val.drop 1
      else unquote val
    else val

/-- The parameter map built by the `GenericParametersIterator` loop of
`ParseParameters` (parser.cc): names and values are raw binaries. -/
def paramsOf (s : List Char) : Term :=
  (splitValues (fun c => c = ';') s).foldl
    (fun m v =>
      let nv := gpSplit v
      mapPut m (.str nv.1) (.str (gpValue nv.2))) .mnil

/-- `ParseParameters` (parser.cc): empty rest yields an empty map; otherwise
skip to the first `;`, step past it and iterate generic parameters. -/
def parseParameters (rest : List Char) : Term :=
  if rest.isEmpty then .mnil
  else paramsOf ((rest.dropWhile (fun c => c ≠ ';')).drop 1)

/-- `ParseToken` (parser.cc): skip LWS; empty rest is `empty_value`; the
token runs to the next LWS byte or `;`.  Also returns the tokenizer rest
(the position after the token) for callers that continue with parameters. -/
def parseToken (v : List Char) : Term × List Char :=
  let r := v.dropWhile isTokLWS
  if r.isEmpty then (.atom ("empty_value".data), [])
  else
    (.str (r.takeWhile (fun c => !(isTokLWS c || c = ';'))),
     r.dropWhile (fun c => !(isTokLWS c || c = ';')))

/-- `ParseSingleTokenParams` (parser.cc). -/
def parseSingleTokenParams (v : List Char) : Term :=
  match parseToken v with
  | (.atom a, _) => .atom a
  | (t, rest) => .tup2 t (parseParameters rest)

/-- `ParseTypeSubtype` (parser.cc): empty after LWS yields the empty tuple;
otherwise `token "/" token`, each token checked with `IsToken` and emitted
verbatim.  Also returns the tokenizer rest for the parameter parser. -/
def parseTypeSubtype (v : List Char) : Term × List Char :=
  let r := v.dropWhile isTokLWS
  if r.isEmpty then (.tup0, r)
  else
    let ty := r.takeWhile (fun c => !(isTokLWS c || c = '/'))
    let r2 := r.dropWhile (fun c => !(isTokLWS c || c = '/'))
    if !isTokenStr ty then (.atom ("invalid_token".data), r2)
    else
      let r4 := ((r2.dropWhile (fun c => c ≠ '/')).drop 1).dropWhile isTokLWS
      if r4.isEmpty then (.atom ("missing_subtype".data), r4)
      else
        let st := r4.takeWhile (fun c => !(isTokLWS c || c = ';'))
        let r5 := r4.dropWhile (fun c => !(isTokLWS c || c = ';'))
        if !isTokenStr st then (.atom ("invalid_token".data), r5)
        else (.tup2 (.str ty) (.str st), r5)

/-- `ParseSingleTypeSubtypeParams` (parser.cc). -/
def parseSingleTypeSubtypeParams (v : List Char) : Term :=
  match parseTypeSubtype v with
  | (.atom a, _) => .atom a
  | (t, rest) => .tup2 t (parseParameters rest)

/-- The comma-separated accumulation loop shared by the `ParseMultiple*`
parsers (parser.cc): element results are prepended and finally reversed
(`enif_make_reverse_list`); an element returning an atom short-circuits. -/
def parseMultipleAux (elem : List Char → Term) : List (List Char) → List Term → Term
  | [], acc => Term.ofList acc.reverse
  | v :: vs, acc =>
    match elem v with
    | .atom a => .atom a
    | t => parseMultipleAux elem vs (t :: acc)

/-- A `ParseMultiple*` parser over a `','` `ValuesIterator`. -/
def parseMultiple (elem : List Char → Term) (s : List Char) : Term :=
  parseMultipleAux elem (splitValues (fun c => c = ',') s) []

/-- `ParseSingleInteger` (parser.cc). -/
def parseSingleInteger (v : List Char) : Term :=
  match stringToInt ((v.dropWhile isTokLWS).takeWhile (fun c => !isTokLWS c)) with
  | none => .atom ("invalid_digits".data)
  | some i => .int i

/-- `ParseTrimmedUtf8` (parser.cc). -/
def parseTrimmedUtf8 (v : List Char) : Term :=
  .str (trimLWS v)

/-- `MakeLowerCaseExistingAtom`'s name canonicalization (parser.cc):
lowercase every byte and replace `-` by `_`. -/
def canonicalName (h : List Char) : List Char :=
  h.map (fun c => if c = '-' then '_' else toLowerASCII c)

/-- The SIP method names of method_list.h, lowercased as loaded into the
atom table by `LoadMethodAtoms`. -/
def methodNames : List (List Char) :=
  [("ack".data), ("bye".data), ("cancel".data), ("info".data), ("invite".data),
   ("message".data), ("notify".data), ("options".data), ("prack".data),
   ("publish".data), ("pull".data), ("push".data), ("refer".data),
   ("register".data), ("store".data), ("subscribe".data), ("update".data)]

/-- The header-value grammar formats of parser.cc that the claims exercise
(the format names are the `Parse<format>` functions). -/
inductive HFormat where
  | SingleToken
  | SingleTokenParams
  | MultipleTokens
  | MultipleTokenParams
  | SingleTypeSubtypeParams
  | MultipleTypeSubtypeParams
  | SingleInteger
  | TrimmedUtf8
  | Cseq
deriving DecidableEq, Repr

/-- Modelled from the spec: the header registry rows of header_list.h,
which is not under src/ (only the X-macro expansion site in parser.cc is).
Per §4.9 each row is `(canonical-name, optional compact letter, format)`;
the compact letters here are those §4.9 lists (`c`=content-type,
`l`=content-length, `s`=subject, `k`=supported), the formats are fixed by
§4.6 and the end-to-end examples (E1 `cseq` is the `Cseq` grammar, E6
`content_length` is `SingleInteger`, E8 `subject` is `TrimmedUtf8`), and the
comma-list formats of the §4.6 table are carried by the standard SIP
comma-list headers `accept`, `accept_encoding` and `supported`. -/
def registryRows : List (List Char × Option Char × HFormat) :=
  [(("accept".data), none, .MultipleTypeSubtypeParams),
   (("accept_encoding".data), none, .MultipleTokenParams),
   (("content_type".data), some 'c', .SingleTypeSubtypeParams),
   (("content_length".data), some 'l', .SingleInteger),
   (("cseq".data), none, .Cseq),
   (("subject".data), some 's', .TrimmedUtf8),
   (("supported".data), some 'k', .MultipleTokens)]

/-- Modelled from the spec: `enif_make_existing_atom` consults the live
Erlang atom table; the deterministic part guaranteed by the module itself
is the set of atoms loaded at initialization (`LoadMethodAtoms` and
`LoadHeaderNameAtoms`), which is what this model uses. -/
def existingAtom (nm : List Char) : Bool :=
  methodNames.any (fun m => m = nm) || registryRows.any (fun r => r.1 = nm)

/-- `MakeLowerCaseExistingAtomOrString` (parser.cc): the canonicalized atom
when it exists, else the original bytes as a binary. -/
def makeLowerAtomOrString (name : List Char) : Term :=
  if existingAtom (canonicalName name) then .atom (canonicalName name)
  else .str name

/-- `ParseCseq` (parser.cc): `integer LWS method`; an unknown method (no
existing atom for its lowercase form) is the error atom `unknown_method`. -/
def parseCseq (v : List Char) : Term :=
  let r := v.dropWhile isTokLWS
  if r.isEmpty then .atom ("missing_sequence".data)
  else
    let intStr := r.takeWhile (fun c => !isTokLWS c)
    let r2 := (r.dropWhile (fun c => !isTokLWS c)).dropWhile isTokLWS
    match stringToInt intStr with
    | none => .atom ("invalid_sequence".data)
    | some n =>
      if r2.isEmpty then .atom ("missing_method".data)
      else
        let nm := canonicalName (r2.takeWhile (fun c => !isTokLWS c))
        if existingAtom nm then .tup2 (.int n) (.atom nm)
        else .atom ("unknown_method".data)

/-- Dispatch of a format name to its value parser. -/
def fmtParse : HFormat → List Char → Term
  | .SingleToken, v => (parseToken v).1
  | .SingleTokenParams, v => parseSingleTokenParams v
  | .MultipleTokens, v => parseMultiple (fun x => (parseToken x).1) v
  | .MultipleTokenParams, v => parseMultiple parseSingleTokenParams v
  | .SingleTypeSubtypeParams, v => parseSingleTypeSubtypeParams v
  | .MultipleTypeSubtypeParams, v => parseMultiple parseSingleTypeSubtypeParams v
  | .SingleInteger, v => parseSingleInteger v
  | .TrimmedUtf8, v => parseTrimmedUtf8 v
  | .Cseq, v => parseCseq v

/-- Find a registry row by canonical name (`g_parsers`). -/
def registryFind (nm : List Char) : Option HFormat :=
  match registryRows.find? (fun r => r.1 = nm) with
  | some (_, _, f) => some f
  | none => none

/-- Find a registry row by compact single-letter alias (`g_aliases`). -/
def aliasFind (c : Char) : Option (List Char) :=
  match registryRows.find? (fun r => r.2.1 = some c) with
  | some (nm, _, _) => some nm
  | none => none

/-- The header-name resolution of `ParseHeader` (parser.cc): a single-byte
name tries the compact-alias table first; otherwise the canonicalized name
must be an existing atom; a name without a registered parser is re-emitted
as a raw binary of the original bytes. -/
def headerResolve (h : List Char) : Term × Option HFormat :=
  let viaAlias :=
    match h with
    | [c] => aliasFind (toLowerASCII c)
    | _ => none
  match viaAlias with
  | some nm => (.atom nm, registryFind nm)
  | none =>
    let nm := canonicalName h
    if existingAtom nm then
      match registryFind nm with
      | some f => (.atom nm, some f)
      | none => (.str h, none)
    else (.str h, none)

/-- `ParseHeader` (parser.cc): resolve the name; a registered name runs its
format parser on the value bytes, an unregistered name yields a one-element
list holding the raw value binary. -/
def headerTerm (h v : List Char) : Term × Term :=
  match headerResolve h with
  | (nt, some f) => (nt, fmtParse f v)
  | _ => (.str h, Term.ofList [.str v])

/-- `HeadersIterator::GetNext` (utils.cc), one line: split at the first
`:` (no colon: skip); skip when the name region is empty or starts with an
`IsLWS` byte; LWS-trim the name and skip unless it is a token; the yielded
value is the LWS-trimmed bytes after the colon. -/
def lineParse (l : List Char) : Option (List Char × List Char) :=
  if (l.dropWhile (fun c => c ≠ ':')).isEmpty then none
  else if (l.takeWhile (fun c => c ≠ ':')).isEmpty then none
  else if !headNotLWS (l.takeWhile (fun c => c ≠ ':')) then none
  else if !isTokenStr (trimLWS (l.takeWhile (fun c => c ≠ ':'))) then none
  else some (trimLWS (l.takeWhile (fun c => c ≠ ':')),
             trimLWS ((l.dropWhile (fun c => c ≠ ':')).drop 1))

/-- The header entries yielded by a `HeadersIterator` over a block: physical
lines are the maximal runs between `\r`/`\n` bytes (its `StringTokenizer`
has no quote bytes configured and empty lines are colon-less, hence
skipped), each passed through `lineParse`. -/
def headerEntries (s : List Char) : List (List Char × List Char) :=
  (splitRuns isCRLFb s).filterMap lineParse

/-- The header-accumulation loop of `Parse` (parser.cc): a fresh name is
inserted; for a present name the stored value must be a list
(else `multiple_definition`, modelled as `none`) and the cells of the new
value — none if it is not a list — are appended in document order. -/
def buildHeaders : Term → List (List Char × List Char) → Option Term
  | m, [] => some m
  | m, (h, v) :: rest =>
    let nv := headerTerm h v
    match mapGet m nv.1 with
    | none => buildHeaders (mapPut m nv.1 nv.2) rest
    | some existing =>
      if !existing.isList then none
      else buildHeaders (mapPut m nv.1 (Term.ofList (existing.cells ++ nv.2.cells))) rest

/-- `ParseVersion` (parser.cc): `SIP` (case-insensitive), optional LWS, `/`,
optional LWS, major digit, `.`, optional LWS, minor digit; each malformed
stage yields its own error atom, the first being `missing_status_line`. -/
def parseVersion (l : List Char) : Term :=
  if l.length < 3 ∨ (l.take 3).map toLowerASCII ≠ ("sip".data) then
    .atom ("missing_status_line".data)
  else
    match (l.drop 3).dropWhile isTokLWS with
    | [] => .atom ("missing_version".data)
    | c :: rest =>
      if c ≠ '/' then .atom ("missing_version".data)
      else
        let r3 := rest.dropWhile isTokLWS
        let r6 := (((r3.dropWhile (fun x => x ≠ '.')).drop 1).dropWhile isTokLWS)
        match r6, r3 with
        | [], _ => .atom ("malformed_version".data)
        | nc :: _, mc :: _ =>
          if !isDigitB mc || !isDigitB nc then .atom ("malformed_version_number".data)
          else .tup2 (.int (mc.toNat - 48)) (.int (nc.toNat - 48))
        | _ :: _, [] => .atom ("malformed_version".data)

/-- `ParseRequestLine` (parser.cc): strip leading whitespace (including
CR/LF), method up to the first space, URI up to the next space, then the
version; the method becomes an existing lowercase atom or the original
bytes.  The interior space-skipping loops of the C code stop at the first
non-space byte, which within `Parse` is at latest the line terminator or
the buffer's NUL sentinel, so they are modelled bounded by the line. -/
def parseRequestLine (line : List Char) : Term :=
  let l := line.dropWhile (fun c => c = ' ' || c = '\t' || c = '\r' || c = '\n')
  let method := l.takeWhile (fun c => c ≠ ' ')
  let rest := l.dropWhile (fun c => c ≠ ' ')
  if rest.isEmpty then .atom ("missing_method".data)
  else
    let rest2 := rest.dropWhile (fun c => c = ' ')
    let uri := rest2.takeWhile (fun c => c ≠ ' ')
    let rest3 := rest2.dropWhile (fun c => c ≠ ' ')
    if rest3.isEmpty then .atom ("missing_uri".data)
    else
      match parseVersion (rest3.dropWhile (fun c => c = ' ')) with
      | .atom a => .atom a
      | version =>
        Term.ofMap
          [(.atom ("__struct__".data), .atom ("Elixir.Sippet.Message.RequestLine".data)),
           (.atom ("method".data), makeLowerAtomOrString method),
           (.atom ("request_uri".data), .str uri),
           (.atom ("version".data), version)]

/-- `IsStatusLine` (parser.cc): the line is strictly longer than 4 bytes and
its first four bytes lowercase to `sip/`. -/
def isStatusLine (line : List Char) : Bool :=
  decide (4 < line.length) && decide ((line.take 4).map toLowerASCII = ("sip/".data))

/-- Read a byte of the underlying buffer; index `length` is the NUL
sentinel that `std::string` guarantees after its data. -/
def bufGet (buf : List Char) (i : Nat) : Char := buf.getD i '\x00'

/-- An unbounded C scan `while (p(buf[i])) ++i;` instrumented with the list
of indices it reads, including the index whose byte stops it.  The fuel
only serves structural recursion; every caller passes more fuel than the
distance to the first byte refuting `p`. -/
def skipWhileR (buf : List Char) (p : Char → Bool) : Nat → Nat → Nat × List Nat
  | 0, i => (i, [])
  | fuel + 1, i =>
    if p (bufGet buf i) then
      let fr := skipWhileR buf p fuel (i + 1)
      (fr.1, i :: fr.2)
    else (i, [i])

/-- `ParseStatusLine` (parser.cc) over the whole input buffer and the first
line `[0, le)`, instrumented with the indices read by its three unbounded
scanning loops (skip spaces, scan digits, skip spaces); the other reads of
the function are bounded by the line range by construction.  The reason
phrase is the rest of the line with trailing spaces trimmed. -/
def parseStatusLineR (buf : List Char) (le : Nat) : Term × List Nat :=
  let line := buf.take le
  let version := parseVersion line
  if version.isAtom then (version, [])
  else
    let k := (line.takeWhile (fun c => c ≠ ' ')).length
    if k = line.length then (.atom ("missing_status_code".data), [])
    else
      let fuel := buf.length + 1
      let s1 := skipWhileR buf (fun c => c = ' ') fuel k
      let s2 := skipWhileR buf isDigitB fuel s1.1
      if s2.1 = s1.1 then (.atom ("empty_status_code".data), s1.2 ++ s2.2)
      else
        match stringToInt ((buf.take s2.1).drop s1.1) with
        | none => (.atom ("invalid_status_code".data), s1.2 ++ s2.2)
        | some code =>
          let s3 := skipWhileR buf (fun c => c = ' ') fuel s2.1
          let reason := ((line.drop s3.1).reverse.dropWhile (fun c => c = ' ')).reverse
          (Term.ofMap
            [(.atom ("__struct__".data), .atom ("Elixir.Sippet.Message.StatusLine".data)),
             (.atom ("version".data), version),
             (.atom ("status_code".data), .int code),
             (.atom ("reason_phrase".data), .str reason)],
           s1.2 ++ s2.2 ++ s3.2)

/-- The jump over the first line's terminator in `Parse` (parser.cc):
skip one CR if present, then one LF if present. -/
def skipCrlf : List Char → List Char
  | '\r' :: r =>
    (match r with
     | '\n' :: u => u
     | u => u)
  | '\n' :: u => u
  | u => u

/-- `Parse` (parser.cc): assemble raw headers (`invalid_line_break` on
failure), parse the first line as status or request line (whose error atoms
are returned bare), jump the terminator and fold the header entries into
the headers map (`multiple_definition` on a non-list repeat).  The
`enif_is_atom` test on `ParseHeader`'s result is dead code — `ParseHeader`
always returns a 2-tuple — and the `enif_make_reverse_list` applied to the
headers map fails and leaves it unchanged; both are modelled as no-ops. -/
def Parse (raw : List Char) : Term :=
  match assembleRaw raw with
  | none => .tup2 (.atom ("error".data)) (.atom ("invalid_line_break".data))
  | some input =>
    let line := input.takeWhile (fun c => !isCRLFb c)
    let startTerm :=
      if isStatusLine line then (parseStatusLineR input line.length).1
      else parseRequestLine line
    match startTerm with
    | .atom a => .atom a
    | sl =>
      let block := skipCrlf (input.dropWhile (fun c => !isCRLFb c))
      match buildHeaders .mnil (headerEntries block) with
      | none => .tup2 (.atom ("error".data)) (.atom ("multiple_definition".data))
      | some hm =>
        let key := if isStatusLine line then ("status_line".data) else ("request_line".data)
        .tup2 (.atom ("ok".data))
          (Term.ofMap [(.atom key, sl), (.atom ("headers".data), hm)])

/-- The port tail of `ParseHostAndPort` (utils.cc), after the host has
been split off: no remaining bytes yield port `-1`; a `:` must be followed
by digits only, an empty digit run also yielding `-1` and a nonempty one
converting via `StringToInt`; anything else fails. -/
def portCont (host : List Char) (rest : List Char) : Option (List Char × Int) :=
  match rest with
  | [] => some (host, -1)
  | c :: ds =>
    if c = ':' then
      if ds.all isDigitB then
        if ds.isEmpty then some (host, -1)
        else
          match stringToInt ds with
          | some p => some (host, p)
          | none => none
      else none
    else none

/-- `ParseHostAndPort` (utils.cc): a leading `[` host runs through the
first `]` (brackets kept in the output); otherwise the host is the maximal
colon-free prefix.  The remainder then runs through the port tail. -/
def parseHostAndPort (s : List Char) : Option (List Char × Int) :=
  match s with
  | [] => none
  | c0 :: tl =>
    if c0 = '[' then
      match (c0 :: tl).dropWhile (fun c => c ≠ ']') with
      | [] => none
      | _ :: r => portCont ((c0 :: tl).takeWhile (fun c => c ≠ ']') ++ [']']) r
    else
      portCont ((c0 :: tl).takeWhile (fun c => c ≠ ':'))
        ((c0 :: tl).dropWhile (fun c => c ≠ ':'))

/-! Input builders and side predicates used by the claim statements. -/

/-- The fixed request line used by the parameterized whole-message inputs. -/
def reqLine : List Char := ("INVITE sip:a@b SIP/2.0".data)

/-- A CRLF byte pair. -/
def crlf : List Char := ['\r', '\n']

/-- One header line `h: v`. -/
def mkHeaderLine (h v : List Char) : List Char := h ++ ':' :: ' ' :: v

/-- A whole message with one header line. -/
def mkOne (h v : List Char) : List Char :=
  reqLine ++ crlf ++ mkHeaderLine h v ++ crlf ++ crlf

/-- A whole message with two header lines. -/
def mkTwo (h v1 v2 : List Char) : List Char :=
  reqLine ++ crlf ++ mkHeaderLine h v1 ++ crlf ++ mkHeaderLine h v2 ++ crlf ++ crlf

/-- The request-line term of `reqLine`. -/
def reqLineTerm : Term := parseRequestLine reqLine

/-- Assemble the outcome of the header fold into `Parse`'s result for a
request whose first line is `reqLine`. -/
def finishHeaders (hm? : Option Term) : Term :=
  match hm? with
  | none => .tup2 (.atom ("error".data)) (.atom ("multiple_definition".data))
  | some hm =>
    .tup2 (.atom ("ok".data))
      (Term.ofMap [(.atom ("request_line".data), reqLineTerm),
                   (.atom ("headers".data), hm)])

/-- A header value byte that disturbs neither line assembly nor the
quote-aware comma splitting: not CR/LF, not a comma, not a quote byte. -/
abbrev plainValChar (c : Char) : Prop :=
  c ≠ '\r' ∧ c ≠ '\n' ∧ c ≠ ',' ∧ isQuoteB c = false

/-- A header value usable in the parameterized message inputs: nonempty,
already LWS-trimmed at both ends, and free of CR/LF bytes. -/
abbrev lineVal (v : List Char) : Prop :=
  v ≠ [] ∧ headNotLWS v = true ∧ headNotLWS v.reverse = true ∧
  ∀ c ∈ v, isCRLFb c = false

/-- A whole message with one garbage line inserted before the header line. -/
def mkBad (bad h v : List Char) : List Char :=
  reqLine ++ crlf ++ bad ++ crlf ++ mkHeaderLine h v ++ crlf ++ crlf

/-- The element parser of each comma-list (`ParseMultiple*`) format. -/
def commaElem : HFormat → Option (List Char → Term)
  | .MultipleTokens => some (fun x => (parseToken x).1)
  | .MultipleTokenParams => some parseSingleTokenParams
  | .MultipleTypeSubtypeParams => some parseSingleTypeSubtypeParams
  | _ => none

/-- The port-side shape accepted by `ParseHostAndPort` after the host:
nothing, a bare colon, or a colon followed by a digit run whose value fits
a signed 32-bit int. -/
abbrev portShape (rest : List Char) (p : Int) : Prop :=
  (rest = [] ∧ p = -1) ∨ (rest = [':'] ∧ p = -1) ∨
  (∃ ds, rest = ':' :: ds ∧ ds ≠ [] ∧ ds.all isDigitB = true ∧
    digitsVal ds ≤ 2 ^ 31 - 1 ∧ p = (digitsVal ds : Int))

/-! Supporting lemmas: takeWhile/dropWhile over appends, token-character
facts, and LWS trimming. -/

theorem takeWhile_all_append {p : Char → Bool} {x : List Char} (y : List Char)
    (h : ∀ c ∈ x, p c = true) : (x ++ y).takeWhile p = x ++ y.takeWhile p := by
  induction x with
  | nil => rfl
  | cons c t ih =>
    simp [List.takeWhile_cons, h c (by simp), ih (fun a ha => h a (by simp [ha]))]

theorem dropWhile_all_append {p : Char → Bool} {x : List Char} (y : List Char)
    (h : ∀ c ∈ x, p c = true) : (x ++ y).dropWhile p = y.dropWhile p := by
  induction x with
  | nil => rfl
  | cons c t ih =>
    simp only [List.cons_append, List.dropWhile_cons, h c (by simp), if_true]
    exact ih (fun a ha => h a (by simp [ha]))

theorem takeWhile_all {p : Char → Bool} {x : List Char}
    (h : ∀ c ∈ x, p c = true) : x.takeWhile p = x := by
  have := takeWhile_all_append (p := p) (x := x) [] h
  simpa using this

theorem dropWhile_all_false {p : Char → Bool} {x : List Char}
    (h : ∀ c ∈ x, p c = false) : x.dropWhile p = x := by
  cases x with
  | nil => rfl
  | cons c t => simp [List.dropWhile_cons, h c (by simp)]

theorem head?_dropWhile {p : Char → Bool} {l : List Char} {c : Char}
    (h : (l.dropWhile p).head? = some c) : p c = false := by
  induction l with
  | nil => simp at h
  | cons a t ih =>
    rw [List.dropWhile_cons] at h
    cases hp : p a with
    | true =>
      simp only [hp, if_true] at h
      exact ih h
    | false =>
      simp only [hp, Bool.false_eq_true, if_false, List.head?_cons,
        Option.some.injEq] at h
      subst h
      exact hp

/-- Facts about a token character: it is none of the structural bytes the
line and token scanners branch on.  (The single-quote byte, by contrast,
is a token character even though it is also a quote byte.) -/
theorem tokenChar_facts {c : Char} (hc : isTokenChar c = true) :
    isLWSc c = false ∧ isTokLWS c = false ∧ isCRLFb c = false ∧
    c ≠ ':' ∧ c ≠ ',' ∧ c ≠ ';' ∧ c ≠ '/' := by
  have h1 : c ≠ ' ' := by rintro rfl; revert hc; decide
  have h2 : c ≠ '\t' := by rintro rfl; revert hc; decide
  have h3 : c ≠ '\x00' := by rintro rfl; revert hc; decide
  have h4 : c ≠ '\r' := by rintro rfl; revert hc; decide
  have h5 : c ≠ '\n' := by rintro rfl; revert hc; decide
  have h8 : c ≠ ':' := by rintro rfl; revert hc; decide
  have h9 : c ≠ ',' := by rintro rfl; revert hc; decide
  have h10 : c ≠ ';' := by rintro rfl; revert hc; decide
  have h11 : c ≠ '/' := by rintro rfl; revert hc; decide
  refine ⟨?_, ?_, ?_, h8, h9, h10, h11⟩ <;>
    simp [isLWSc, isTokLWS, isCRLFb, h1, h2, h3, h4, h5]

theorem isTokenStr_facts {h : List Char} (hh : isTokenStr h = true) :
    h ≠ [] ∧ ∀ c ∈ h, isTokenChar c = true := by
  rcases Bool.and_eq_true_iff.mp hh with ⟨h1, h2⟩
  refine ⟨by simpa [List.isEmpty_iff] using h1, ?_⟩
  intro c hch
  exact List.all_eq_true.mp h2 c hch

theorem trimLWS_cons_lws {c : Char} (hc : isLWSc c = true) (v : List Char) :
    trimLWS (c :: v) = trimLWS v := by
  simp [trimLWS, List.dropWhile_cons, hc]

theorem trimLWS_nil : trimLWS [] = [] := rfl

/-- A list whose first and last bytes are not LWS is untouched by
`trimLWS`. -/
theorem trimLWS_eq_self {v : List Char}
    (h1 : headNotLWS v = true) (h2 : headNotLWS v.reverse = true) :
    trimLWS v = v := by
  have front : v.dropWhile isLWSc = v := by
    cases v with
    | nil => rfl
    | cons c t =>
      simp only [headNotLWS, List.head?_cons] at h1
      have : isLWSc c = false := by simpa using h1
      simp [List.dropWhile_cons, this]
  have back : v.reverse.dropWhile isLWSc = v.reverse := by
    cases hr : v.reverse with
    | nil => rfl
    | cons c t =>
      rw [hr] at h2
      simp only [headNotLWS, List.head?_cons] at h2
      have : isLWSc c = false := by simpa using h2
      simp [List.dropWhile_cons, this]
  simp [trimLWS, front, back]

theorem trimLWS_all_notLWS {v : List Char}
    (h : ∀ c ∈ v, isLWSc c = false) : trimLWS v = v := by
  have front : v.dropWhile isLWSc = v := dropWhile_all_false h
  have back : v.reverse.dropWhile isLWSc = v.reverse :=
    dropWhile_all_false (fun c hc => h c (List.mem_reverse.mp hc))
  simp [trimLWS, front, back]

/-- The head of a trimmed list is not LWS. -/
theorem head?_trimLWS {x : List Char} {c : Char}
    (h : (trimLWS x).head? = some c) : isLWSc c = false := by
  unfold trimLWS at h
  set w := (x.dropWhile isLWSc).reverse.dropWhile isLWSc with hw
  rw [List.head?_reverse] at h
  have hwne : w ≠ [] := by
    intro he
    rw [he] at h
    simp at h
  have hsplit : (x.dropWhile isLWSc).reverse.takeWhile isLWSc ++ w =
      (x.dropWhile isLWSc).reverse := by
    rw [hw]
    exact List.takeWhile_append_dropWhile _ _
  have : w.getLast? = ((x.dropWhile isLWSc).reverse).getLast? := by
    rw [← hsplit]
    exact (List.getLast?_append_of_ne_nil _ hwne).symm
  rw [this, List.getLast?_reverse] at h
  exact head?_dropWhile h

/-- The last byte of a trimmed list is not LWS. -/
theorem getLast?_trimLWS {x : List Char} {c : Char}
    (h : (trimLWS x).getLast? = some c) : isLWSc c = false := by
  unfold trimLWS at h
  rw [List.getLast?_reverse] at h
  exact head?_dropWhile h

theorem lineVal_trim {v : List Char} (hv : lineVal v) : trimLWS v = v :=
  trimLWS_eq_self hv.2.1 hv.2.2.1

/-- `trimLWS` absorbs a leading space. -/
theorem trimLWS_space (v : List Char) : trimLWS (' ' :: v) = trimLWS v :=
  trimLWS_cons_lws (by decide) v

/-! Supporting lemmas: run splitting and the quote-aware value splitter. -/

theorem splitRunsAux_all {d : Char → Bool} {x : List Char} (cur : List Char)
    (h : ∀ c ∈ x, d c = false) :
    splitRunsAux d cur x =
      if (cur.reverse ++ x).isEmpty then [] else [cur.reverse ++ x] := by
  induction x generalizing cur with
  | nil =>
    simp only [splitRunsAux, List.append_nil]
    cases cur <;> simp
  | cons c t ih =>
    simp only [splitRunsAux, h c (by simp), Bool.false_eq_true, if_false]
    rw [ih (c :: cur) (fun a ha => h a (by simp [ha]))]
    simp

theorem splitRunsAux_delim {d : Char → Bool} {x : List Char} {c : Char}
    (y cur : List Char) (hx : ∀ a ∈ x, d a = false) (hc : d c = true) :
    splitRunsAux d cur (x ++ c :: y) =
      (if (cur.reverse ++ x).isEmpty then [] else [cur.reverse ++ x]) ++
        splitRunsAux d [] y := by
  induction x generalizing cur with
  | nil =>
    simp only [List.nil_append, splitRunsAux, hc, if_true]
    cases cur <;> simp
  | cons a t ih =>
    simp only [List.cons_append, splitRunsAux, hx a (by simp), Bool.false_eq_true, if_false,
      List.append_eq]
    rw [ih (a :: cur) (fun b hb => hx b (by simp [hb]))]
    simp

/-- Splitting a block whose first line is nonempty and delimiter-free. -/
theorem splitRuns_cons_line {x : List Char} {c : Char} (y : List Char)
    {d : Char → Bool} (hx : ∀ a ∈ x, d a = false) (hc : d c = true)
    (hne : x ≠ []) :
    splitRuns d (x ++ c :: y) = x :: splitRuns d y := by
  unfold splitRuns
  rw [splitRunsAux_delim y [] hx hc]
  simp [List.isEmpty_iff, hne]

theorem splitRuns_single {x : List Char} {d : Char → Bool}
    (hx : ∀ a ∈ x, d a = false) (hne : x ≠ []) :
    splitRuns d x = [x] := by
  unfold splitRuns
  rw [splitRunsAux_all [] hx]
  simp [List.isEmpty_iff, hne]

theorem splitQAAux_all {δ q : Char → Bool} {x : List Char} (cur : List Char)
    (h : ∀ c ∈ x, δ c = false ∧ q c = false) :
    splitQAAux δ q .out cur x = [cur.reverse ++ x] := by
  induction x generalizing cur with
  | nil => simp [splitQAAux]
  | cons c t ih =>
    have hc := h c (by simp)
    simp only [splitQAAux, hc.1, hc.2, Bool.false_eq_true, if_false]
    rw [ih (c :: cur) (fun a ha => h a (by simp [ha]))]
    simp

theorem splitQAAux_delim {δ q : Char → Bool} {x : List Char} {c : Char}
    (y cur : List Char) (hx : ∀ a ∈ x, δ a = false ∧ q a = false)
    (hc : δ c = true) :
    splitQAAux δ q .out cur (x ++ c :: y) =
      (cur.reverse ++ x) :: splitQAAux δ q .out [] y := by
  induction x generalizing cur with
  | nil => simp [splitQAAux, hc]
  | cons a t ih =>
    have ha := hx a (by simp)
    simp only [List.cons_append, splitQAAux, ha.1, ha.2, Bool.false_eq_true, if_false,
      List.append_eq]
    rw [ih (a :: cur) (fun b hb => hx b (by simp [hb]))]
    simp

/-- `splitValues` on a single plain value. -/
theorem splitValues_single {δ : Char → Bool} {a : List Char}
    (h : ∀ c ∈ a, δ c = false ∧ isQuoteB c = false)
    (ha : lineVal a) :
    splitValues δ a = [a] := by
  unfold splitValues
  rw [show splitQAAux δ isQuoteB .out [] a = [a] from by
    simpa using splitQAAux_all (δ := δ) (q := isQuoteB) [] h]
  simp [lineVal_trim ha, List.isEmpty_iff, ha.1]

/-- `splitValues` on `a, b` for plain values. -/
theorem splitValues_pair {δ : Char → Bool} {a b : List Char}
    (hδ : δ ',' = true) (hsp : δ ' ' = false ∧ isQuoteB ' ' = false)
    (h1 : ∀ c ∈ a, δ c = false ∧ isQuoteB c = false)
    (h2 : ∀ c ∈ b, δ c = false ∧ isQuoteB c = false)
    (ha : lineVal a) (hb : lineVal b) :
    splitValues δ (a ++ ',' :: ' ' :: b) = [a, b] := by
  unfold splitValues
  rw [splitQAAux_delim (' ' :: b) [] h1 hδ]
  rw [show splitQAAux δ isQuoteB .out [] (' ' :: b) = [' ' :: b] from by
    simpa using splitQAAux_all (δ := δ) (q := isQuoteB) []
      (fun c hc => by
        rcases List.mem_cons.mp hc with h | h
        · subst h; exact hsp
        · exact h2 c h)]
  simp only [List.reverse_nil, List.nil_append, List.map_cons, List.map_nil]
  rw [trimLWS_space, lineVal_trim ha, lineVal_trim hb]
  simp [List.isEmpty_iff, ha.1, hb.1]

/-! Supporting lemmas: the header-block assembler. -/

theorem assembleRaw_cons_plain {c : Char} (r : List Char)
    (h1 : c ≠ '\n') (h2 : c ≠ '\r') :
    assembleRaw (c :: r) = (assembleRaw r).map (fun o => c :: o) := by
  simp [assembleRaw, h1, h2]

theorem assembleRaw_plain_append {x : List Char} (v : List Char)
    (h : ∀ c ∈ x, isCRLFb c = false) :
    assembleRaw (x ++ v) = (assembleRaw v).map (fun o => x ++ o) := by
  induction x with
  | nil =>
    simp only [List.nil_append]
    cases assembleRaw v <;> simp
  | cons c t ih =>
    have hc := h c (by simp)
    have h1 : c ≠ '\n' := by rintro rfl; simp [isCRLFb] at hc
    have h2 : c ≠ '\r' := by rintro rfl; simp [isCRLFb] at hc
    rw [List.cons_append, assembleRaw_cons_plain _ h1 h2,
      ih (fun a ha => h a (by simp [ha]))]
    cases assembleRaw v <;> simp

theorem assembleRaw_crlf_cons (d : Char) (w : List Char) :
    assembleRaw ('\r' :: '\n' :: d :: w) =
      if isLWSc d then assembleRaw (d :: w)
      else (assembleRaw (d :: w)).map (fun o => '\n' :: o) := by
  simp [assembleRaw]

theorem assembleRaw_lastline {x : List Char} (h : ∀ c ∈ x, isCRLFb c = false) :
    assembleRaw (x ++ ['\r', '\n']) = some x := by
  rw [assembleRaw_plain_append _ h,
    show assembleRaw ['\r', '\n'] = some [] from rfl]
  simp

theorem assembleRaw_line_cons {x : List Char} (d : Char) (w : List Char)
    (h : ∀ c ∈ x, isCRLFb c = false) (hd : isLWSc d = false) :
    assembleRaw (x ++ '\r' :: '\n' :: d :: w) =
      (assembleRaw (d :: w)).map (fun o => x ++ '\n' :: o) := by
  rw [assembleRaw_plain_append _ h, assembleRaw_crlf_cons, hd]
  cases assembleRaw (d :: w) <;> simp

/-! Supporting lemmas: reduction of `Parse` on request-shaped inputs. -/

theorem parse_req_block (raw B : List Char)
    (ha : assembleRaw raw = some (reqLine ++ '\n' :: B)) :
    Parse raw = finishHeaders (buildHeaders .mnil (headerEntries B)) := by
  have hmem : ∀ c ∈ reqLine, (!isCRLFb c) = true := by decide
  have hline : (reqLine ++ '\n' :: B).takeWhile (fun c => !isCRLFb c) = reqLine := by
    rw [takeWhile_all_append _ hmem, List.takeWhile_cons,
      show (!isCRLFb '\n') = false from rfl]
    simp
  have hdrop : (reqLine ++ '\n' :: B).dropWhile (fun c => !isCRLFb c) = '\n' :: B := by
    rw [dropWhile_all_append _ hmem, List.dropWhile_cons,
      show (!isCRLFb '\n') = false from rfl]
    simp
  unfold Parse
  rw [ha]
  simp only [hline, hdrop]
  rw [show isStatusLine reqLine = false from by decide]
  simp only [Bool.false_eq_true, if_false]
  rfl

theorem lineParse_mk {h v : List Char} (hh : isTokenStr h = true)
    (hv : lineVal v) : lineParse (mkHeaderLine h v) = some (h, v) := by
  obtain ⟨hne, htok⟩ := isTokenStr_facts hh
  have hnc : ∀ c ∈ h, (decide (c ≠ ':') : Bool) = true := by
    intro c hc
    simpa using (tokenChar_facts (htok c hc)).2.2.2.1
  have hname : (mkHeaderLine h v).takeWhile (fun c => decide (c ≠ ':')) = h := by
    unfold mkHeaderLine
    rw [takeWhile_all_append _ hnc, List.takeWhile_cons,
      show (decide ((':' : Char) ≠ ':') : Bool) = false from rfl]
    simp
  have hrest : (mkHeaderLine h v).dropWhile (fun c => decide (c ≠ ':')) = ':' :: ' ' :: v := by
    unfold mkHeaderLine
    rw [dropWhile_all_append _ hnc, List.dropWhile_cons,
      show (decide ((':' : Char) ≠ ':') : Bool) = false from rfl]
    simp
  have hhead : headNotLWS h = true := by
    obtain ⟨c0, t0, rfl⟩ := List.exists_cons_of_ne_nil hne
    have hc0 : isTokenChar c0 = true := htok c0 (by simp)
    simp [headNotLWS, (tokenChar_facts hc0).1]
  unfold lineParse
  rw [hname, hrest]
  simp only [List.isEmpty_cons, Bool.false_eq_true, if_false,
    show h.isEmpty = false from by simpa [List.isEmpty_iff] using hne,
    hhead, Bool.not_true,
    trimLWS_all_notLWS (fun c hc => (tokenChar_facts (htok c hc)).1), hh,
    List.drop_succ_cons, List.drop_zero]
  rw [trimLWS_space, lineVal_trim hv]

theorem headerEntries_one {h v : List Char} (hh : isTokenStr h = true)
    (hv : lineVal v) :
    headerEntries (mkHeaderLine h v ++ ['\n']) = [(h, v)] := by
  obtain ⟨hne, htok⟩ := isTokenStr_facts hh
  have hfree : ∀ a ∈ mkHeaderLine h v, isCRLFb a = false := by
    intro a hahl
    unfold mkHeaderLine at hahl
    rcases List.mem_append.mp hahl with hmem | hmem
    · exact (tokenChar_facts (htok a hmem)).2.2.1
    · rcases List.mem_cons.mp hmem with rfl | hmem
      · decide
      · rcases List.mem_cons.mp hmem with rfl | hmem
        · decide
        · exact hv.2.2.2 a hmem
  have hlne : mkHeaderLine h v ≠ [] := by
    unfold mkHeaderLine
    intro he
    exact hne (List.append_eq_nil.mp he).1
  unfold headerEntries
  rw [show mkHeaderLine h v ++ ['\n'] = mkHeaderLine h v ++ '\n' :: [] from rfl,
    splitRuns_cons_line [] hfree (by decide) hlne]
  rw [show splitRuns isCRLFb [] = [] from rfl]
  simp [lineParse_mk hh hv]

theorem headerEntries_two {h v1 v2 : List Char} (hh : isTokenStr h = true)
    (hv1 : lineVal v1) (hv2 : lineVal v2) :
    headerEntries (mkHeaderLine h v1 ++ '\n' :: (mkHeaderLine h v2 ++ ['\n'])) =
      [(h, v1), (h, v2)] := by
  obtain ⟨hne, htok⟩ := isTokenStr_facts hh
  have hfree : ∀ a ∈ mkHeaderLine h v1, isCRLFb a = false := by
    intro a hahl
    unfold mkHeaderLine at hahl
    rcases List.mem_append.mp hahl with hmem | hmem
    · exact (tokenChar_facts (htok a hmem)).2.2.1
    · rcases List.mem_cons.mp hmem with rfl | hmem
      · decide
      · rcases List.mem_cons.mp hmem with rfl | hmem
        · decide
        · exact hv1.2.2.2 a hmem
  have hlne : mkHeaderLine h v1 ≠ [] := by
    unfold mkHeaderLine
    intro he
    exact hne (List.append_eq_nil.mp he).1
  unfold headerEntries
  rw [splitRuns_cons_line _ hfree (by decide) hlne]
  have h2 := headerEntries_one hh hv2
  unfold headerEntries at h2
  simp only [List.filterMap_cons, lineParse_mk hh hv1, h2]

theorem assembleRaw_mkOne {h v : List Char} (hh : isTokenStr h = true)
    (hv : lineVal v) :
    assembleRaw (mkOne h v) = some (reqLine ++ '\n' :: (mkHeaderLine h v ++ ['\n'])) := by
  obtain ⟨hne, htok⟩ := isTokenStr_facts hh
  obtain ⟨c0, t0, hc0⟩ := List.exists_cons_of_ne_nil hne
  have hreq : ∀ c ∈ reqLine, isCRLFb c = false := by decide
  have hfree : ∀ a ∈ mkHeaderLine h v, isCRLFb a = false := by
    intro a hahl
    unfold mkHeaderLine at hahl
    rcases List.mem_append.mp hahl with hmem | hmem
    · exact (tokenChar_facts (htok a hmem)).2.2.1
    · rcases List.mem_cons.mp hmem with rfl | hmem
      · decide
      · rcases List.mem_cons.mp hmem with rfl | hmem
        · decide
        · exact hv.2.2.2 a hmem
  have hinner : assembleRaw (mkHeaderLine h v ++ '\r' :: '\n' :: '\r' :: '\n' :: []) =
      some (mkHeaderLine h v ++ ['\n']) := by
    rw [assembleRaw_line_cons '\r' ('\n' :: []) hfree (by decide)]
    rfl
  have hshape : mkOne h v =
      reqLine ++ '\r' :: '\n' :: (mkHeaderLine h v ++ '\r' :: '\n' :: '\r' :: '\n' :: []) := by
    unfold mkOne crlf
    simp
  rw [hshape]
  have hhead : mkHeaderLine h v ++ '\r' :: '\n' :: '\r' :: '\n' :: [] =
      c0 :: (t0 ++ ':' :: ' ' :: v ++ '\r' :: '\n' :: '\r' :: '\n' :: []) := by
    unfold mkHeaderLine
    rw [hc0]
    simp
  rw [hhead, assembleRaw_line_cons _ _ hreq
    (by
      rw [hc0] at htok
      exact (tokenChar_facts (htok c0 (by simp))).1)]
  rw [← hhead, hinner]
  rfl

theorem assembleRaw_mkTwo {h v1 v2 : List Char} (hh : isTokenStr h = true)
    (hv1 : lineVal v1) (hv2 : lineVal v2) :
    assembleRaw (mkTwo h v1 v2) =
      some (reqLine ++ '\n' ::
        (mkHeaderLine h v1 ++ '\n' :: (mkHeaderLine h v2 ++ ['\n']))) := by
  obtain ⟨hne, htok⟩ := isTokenStr_facts hh
  obtain ⟨c0, t0, hc0⟩ := List.exists_cons_of_ne_nil hne
  have hd : isLWSc c0 = false := by
    rw [hc0] at htok
    exact (tokenChar_facts (htok c0 (by simp))).1
  have hreq : ∀ c ∈ reqLine, isCRLFb c = false := by decide
  have hfree : ∀ (v : List Char), lineVal v → ∀ a ∈ mkHeaderLine h v, isCRLFb a = false := by
    intro v hv a hahl
    unfold mkHeaderLine at hahl
    rcases List.mem_append.mp hahl with hmem | hmem
    · exact (tokenChar_facts (htok a hmem)).2.2.1
    · rcases List.mem_cons.mp hmem with rfl | hmem
      · decide
      · rcases List.mem_cons.mp hmem with rfl | hmem
        · decide
        · exact hv.2.2.2 a hmem
  have hinner2 : assembleRaw (mkHeaderLine h v2 ++ '\r' :: '\n' :: '\r' :: '\n' :: []) =
      some (mkHeaderLine h v2 ++ ['\n']) := by
    rw [assembleRaw_line_cons '\r' ('\n' :: []) (hfree v2 hv2) (by decide)]
    rfl
  have hhead2 : mkHeaderLine h v2 ++ '\r' :: '\n' :: '\r' :: '\n' :: [] =
      c0 :: (t0 ++ ':' :: ' ' :: v2 ++ '\r' :: '\n' :: '\r' :: '\n' :: []) := by
    unfold mkHeaderLine
    rw [hc0]
    simp
  have hinner1 : assembleRaw
      (mkHeaderLine h v1 ++ '\r' :: '\n' ::
        (mkHeaderLine h v2 ++ '\r' :: '\n' :: '\r' :: '\n' :: [])) =
      some (mkHeaderLine h v1 ++ '\n' :: (mkHeaderLine h v2 ++ ['\n'])) := by
    rw [hhead2, assembleRaw_line_cons _ _ (hfree v1 hv1) hd, ← hhead2, hinner2]
    rfl
  have hhead1 : mkHeaderLine h v1 ++ '\r' :: '\n' ::
      (mkHeaderLine h v2 ++ '\r' :: '\n' :: '\r' :: '\n' :: []) =
      c0 :: (t0 ++ ':' :: ' ' :: v1 ++ '\r' :: '\n' ::
        (mkHeaderLine h v2 ++ '\r' :: '\n' :: '\r' :: '\n' :: [])) := by
    unfold mkHeaderLine
    rw [hc0]
    simp
  have hshape : mkTwo h v1 v2 =
      reqLine ++ '\r' :: '\n' ::
        (mkHeaderLine h v1 ++ '\r' :: '\n' ::
          (mkHeaderLine h v2 ++ '\r' :: '\n' :: '\r' :: '\n' :: [])) := by
    unfold mkTwo crlf
    simp
  rw [hshape, hhead1, assembleRaw_line_cons _ _ hreq hd, ← hhead1, hinner1]
  rfl

theorem parse_mkOne {h v : List Char} (hh : isTokenStr h = true)
    (hv : lineVal v) :
    Parse (mkOne h v) = finishHeaders (buildHeaders .mnil [(h, v)]) := by
  rw [parse_req_block _ _ (assembleRaw_mkOne hh hv), headerEntries_one hh hv]

theorem parse_mkTwo {h v1 v2 : List Char} (hh : isTokenStr h = true)
    (hv1 : lineVal v1) (hv2 : lineVal v2) :
    Parse (mkTwo h v1 v2) = finishHeaders (buildHeaders .mnil [(h, v1), (h, v2)]) := by
  rw [parse_req_block _ _ (assembleRaw_mkTwo hh hv1 hv2),
    headerEntries_two hh hv1 hv2]

/-! Supporting lemmas: modelled Erlang lists and the comma-list fold. -/

theorem ofList_isList (l : List Term) : (Term.ofList l).isList = true := by
  cases l <;> rfl

theorem cells_ofList (l : List Term) : (Term.ofList l).cells = l := by
  induction l with
  | nil => rfl
  | cons t r ih => simp [Term.ofList, Term.cells, ih]

theorem ofList_inj {l1 l2 : List Term} (h : Term.ofList l1 = Term.ofList l2) :
    l1 = l2 := by
  induction l1 generalizing l2 with
  | nil => cases l2 with
    | nil => rfl
    | cons y ys => simp [Term.ofList] at h
  | cons x xs ih =>
    cases l2 with
    | nil => simp [Term.ofList] at h
    | cons y ys =>
      simp only [Term.ofList, Term.cons.injEq] at h
      simp [h.1, ih h.2]

theorem ofList_ne_atom (l : List Term) (s : List Char) :
    Term.ofList l ≠ .atom s := by
  cases l <;> simp [Term.ofList]

theorem head?_append_left {x : List Char} (y : List Char) (h : x ≠ []) :
    (x ++ y).head? = x.head? := by
  cases x with
  | nil => exact absurd rfl h
  | cons c t => simp

theorem lineVal_join {a b : List Char} (ha : lineVal a) (hb : lineVal b) :
    lineVal (a ++ ',' :: ' ' :: b) := by
  obtain ⟨hane, hah, hal, hacr⟩ := ha
  obtain ⟨hbne, hbh, hbl, hbcr⟩ := hb
  refine ⟨by simp, ?_, ?_, ?_⟩
  · unfold headNotLWS
    rw [head?_append_left _ hane]
    unfold headNotLWS at hah
    exact hah
  · unfold headNotLWS
    rw [show (a ++ ',' :: ' ' :: b).reverse = b.reverse ++ (' ' :: ',' :: a.reverse) from by
      simp]
    rw [head?_append_left _ (by simpa using hbne)]
    unfold headNotLWS at hbl
    exact hbl
  · intro c hc
    rcases List.mem_append.mp hc with hm | hm
    · exact hacr c hm
    · rcases List.mem_cons.mp hm with rfl | hm
      · decide
      · rcases List.mem_cons.mp hm with rfl | hm
        · decide
        · exact hbcr c hm

theorem parseMultipleAux_cons_nonatom {elem : List Char → Term} {v : List Char}
    {t : Term} (hv : elem v = t) (ht : t.isAtom = false)
    (vs : List (List Char)) (acc : List Term) :
    parseMultipleAux elem (v :: vs) acc = parseMultipleAux elem vs (t :: acc) := by
  rw [show parseMultipleAux elem (v :: vs) acc =
      (match elem v with
       | .atom s => Term.atom s
       | t => parseMultipleAux elem vs (t :: acc)) from rfl, hv]
  cases t with
  | atom s => simp [Term.isAtom] at ht
  | str s => rfl
  | int n => rfl
  | tup0 => rfl
  | tup2 x y => rfl
  | nil => rfl
  | cons x y => rfl
  | mnil => rfl
  | mcons k w r => rfl

/-- The comma-list fold dispatched by `commaElem`. -/
theorem fmtParse_comma {fmt : HFormat} {elem : List Char → Term}
    (h : commaElem fmt = some elem) (v : List Char) :
    fmtParse fmt v = parseMultiple elem v := by
  cases fmt <;> simp only [commaElem, Option.some.injEq, reduceCtorEq] at h <;>
    first
      | exact absurd h (by simp)
      | (subst h; rfl)

/-- On a plain single value the comma fold is the bracketed element. -/
theorem parseMultiple_plain_single {elem : List Char → Term} {a : List Char}
    (ha : lineVal a) (hplain : ∀ c ∈ a, plainValChar c) :
    parseMultiple elem a =
      (match elem a with
       | .atom s => .atom s
       | t => Term.ofList [t]) := by
  unfold parseMultiple
  rw [splitValues_single (fun c hc => ⟨by simpa using (hplain c hc).2.2.1, (hplain c hc).2.2.2⟩) ha]
  cases he : elem a with
  | atom s =>
    rw [show parseMultipleAux elem [a] [] =
        (match elem a with
         | .atom s => Term.atom s
         | t => parseMultipleAux elem [] [t]) from rfl, he]
  | str s => rw [parseMultipleAux_cons_nonatom he (by simp [Term.isAtom]) [] []]; rfl
  | int n => rw [parseMultipleAux_cons_nonatom he (by simp [Term.isAtom]) [] []]; rfl
  | tup0 => rw [parseMultipleAux_cons_nonatom he (by simp [Term.isAtom]) [] []]; rfl
  | tup2 x y => rw [parseMultipleAux_cons_nonatom he (by simp [Term.isAtom]) [] []]; rfl
  | nil => rw [parseMultipleAux_cons_nonatom he (by simp [Term.isAtom]) [] []]; rfl
  | cons x y => rw [parseMultipleAux_cons_nonatom he (by simp [Term.isAtom]) [] []]; rfl
  | mnil => rw [parseMultipleAux_cons_nonatom he (by simp [Term.isAtom]) [] []]; rfl
  | mcons k w r => rw [parseMultipleAux_cons_nonatom he (by simp [Term.isAtom]) [] []]; rfl

/-- The element result and singleton list recovered from a successful plain
single-value comma parse. -/
theorem parseMultiple_single_inv {elem : List Char → Term} {a : List Char}
    {la : List Term} (ha : lineVal a) (hplain : ∀ c ∈ a, plainValChar c)
    (h : parseMultiple elem a = Term.ofList la) :
    (elem a).isAtom = false ∧ la = [elem a] := by
  rw [parseMultiple_plain_single ha hplain] at h
  cases he : elem a with
  | atom s =>
    rw [he] at h
    exact absurd h.symm (ofList_ne_atom la s)
  | _ =>
    rw [he] at h
    first
      | exact ⟨rfl, (ofList_inj h.symm)⟩

theorem headerTerm_some {h : List Char} {nt : Term} {fmt : HFormat}
    (hres : headerResolve h = (nt, some fmt)) (v : List Char) :
    headerTerm h v = (nt, fmtParse fmt v) := by
  unfold headerTerm
  rw [hres]

theorem buildHeaders_single_fmt {h : List Char} {nt : Term} {fmt : HFormat}
    (hres : headerResolve h = (nt, some fmt)) (v : List Char) :
    buildHeaders .mnil [(h, v)] = some (.mcons nt (fmtParse fmt v) .mnil) := by
  unfold buildHeaders
  rw [headerTerm_some hres]
  rfl

theorem buildHeaders_pair_fmt {h : List Char} {nt : Term} {fmt : HFormat}
    (hres : headerResolve h = (nt, some fmt)) (va vb : List Char)
    {la lb : List Term} (hva : fmtParse fmt va = Term.ofList la)
    (hvb : fmtParse fmt vb = Term.ofList lb) :
    buildHeaders .mnil [(h, va), (h, vb)] =
      some (.mcons nt (Term.ofList (la ++ lb)) .mnil) := by
  rw [show buildHeaders .mnil [(h, va), (h, vb)] =
      (let nv := headerTerm h va
       match mapGet .mnil nv.1 with
       | none => buildHeaders (mapPut .mnil nv.1 nv.2) [(h, vb)]
       | some existing =>
         if !existing.isList then none
         else buildHeaders (mapPut .mnil nv.1
           (Term.ofList (existing.cells ++ nv.2.cells))) [(h, vb)]) from rfl]
  rw [headerTerm_some hres va, hva]
  show buildHeaders (.mcons nt (Term.ofList la) .mnil) [(h, vb)] = _
  rw [show buildHeaders (.mcons nt (Term.ofList la) .mnil) [(h, vb)] =
      (let nv := headerTerm h vb
       match mapGet (.mcons nt (Term.ofList la) .mnil) nv.1 with
       | none => buildHeaders (mapPut (.mcons nt (Term.ofList la) .mnil) nv.1 nv.2) []
       | some existing =>
         if !existing.isList then none
         else buildHeaders (mapPut (.mcons nt (Term.ofList la) .mnil) nv.1
           (Term.ofList (existing.cells ++ nv.2.cells))) []) from rfl]
  rw [headerTerm_some hres vb, hvb]
  simp [mapGet, mapPut, ofList_isList, cells_ofList, buildHeaders]

theorem buildHeaders_pair_nonlist {h : List Char} {nt : Term} {fmt : HFormat}
    (hres : headerResolve h = (nt, some fmt)) (va vb : List Char)
    (hnl : (fmtParse fmt va).isList = false) :
    buildHeaders .mnil [(h, va), (h, vb)] = none := by
  rw [show buildHeaders .mnil [(h, va), (h, vb)] =
      (let nv := headerTerm h va
       match mapGet .mnil nv.1 with
       | none => buildHeaders (mapPut .mnil nv.1 nv.2) [(h, vb)]
       | some existing =>
         if !existing.isList then none
         else buildHeaders (mapPut .mnil nv.1
           (Term.ofList (existing.cells ++ nv.2.cells))) [(h, vb)]) from rfl]
  rw [headerTerm_some hres va]
  show buildHeaders (.mcons nt (fmtParse fmt va) .mnil) [(h, vb)] = _
  rw [show buildHeaders (.mcons nt (fmtParse fmt va) .mnil) [(h, vb)] =
      (let nv := headerTerm h vb
       match mapGet (.mcons nt (fmtParse fmt va) .mnil) nv.1 with
       | none => buildHeaders (mapPut (.mcons nt (fmtParse fmt va) .mnil) nv.1 nv.2) []
       | some existing =>
         if !existing.isList then none
         else buildHeaders (mapPut (.mcons nt (fmtParse fmt va) .mnil) nv.1
           (Term.ofList (existing.cells ++ nv.2.cells))) []) from rfl]
  rw [headerTerm_some hres vb]
  simp [mapGet, hnl]

/-! Supporting lemmas: lone CRs and CRLF-to-LF replacement in the
assembler. -/

theorem arh_none_of_loneCR : ∀ (n : Nat) (s : List Char), s.length ≤ n →
    noLoneCR s = false → assembleRaw s = none := by
  intro n
  induction n with
  | zero =>
    intro s hs h
    cases s with
    | nil => simp [noLoneCR] at h
    | cons c r => simp at hs
  | succ n ih =>
    intro s hs h
    cases s with
    | nil => simp [noLoneCR] at h
    | cons c r =>
      by_cases hc1 : c = '\n'
      · subst hc1
        cases r with
        | nil => simp [noLoneCR] at h
        | cons d r' =>
          have hr : noLoneCR (d :: r') = false := by simpa [noLoneCR] using h
          have hrec := ih (d :: r') (by simp at hs ⊢; omega) hr
          simp [assembleRaw, hrec]
      · by_cases hc2 : c = '\r'
        · subst hc2
          cases r with
          | nil => simp [assembleRaw]
          | cons d r' =>
            by_cases hd : d = '\n'
            · subst hd
              cases r' with
              | nil => simp [noLoneCR] at h
              | cons e r'' =>
                have hr : noLoneCR (e :: r'') = false := by
                  simpa [noLoneCR] using h
                have hrec := ih (e :: r'') (by simp at hs ⊢; omega) hr
                simp [assembleRaw, hrec]
            · simp [assembleRaw, hd]
        · have hr : noLoneCR r = false := by simpa [noLoneCR, hc2] using h
          have hrec := ih r (by simp at hs ⊢; omega) hr
          simp [assembleRaw, hc1, hc2, hrec]

/-- Under `noLoneCR`, the replacement keeps the head byte's LWS status (a
leading CRLF pair is replaced by LF, and neither CR nor LF is LWS). -/
theorem replace_head_lws : ∀ (d : Char) (r : List Char),
    noLoneCR (d :: r) = true →
    ∃ e t, replaceCRLF (d :: r) = e :: t ∧ isLWSc e = isLWSc d := by
  intro d r h
  by_cases hd : d = '\r'
  · subst hd
    cases r with
    | nil => simp [noLoneCR] at h
    | cons x r' =>
      by_cases hx : x = '\n'
      · subst hx
        exact ⟨'\n', replaceCRLF r', by simp [replaceCRLF], by decide⟩
      · simp [noLoneCR, hx] at h
  · cases r with
    | nil => exact ⟨d, [], by simp [replaceCRLF, hd], rfl⟩
    | cons x r' => exact ⟨d, replaceCRLF (x :: r'), by simp [replaceCRLF, hd], rfl⟩

theorem arh_replace_aux : ∀ (n : Nat) (s : List Char), s.length ≤ n →
    noLoneCR s = true → assembleRaw (replaceCRLF s) = assembleRaw s := by
  intro n
  induction n with
  | zero =>
    intro s hs h
    cases s with
    | nil => rfl
    | cons c r => simp at hs
  | succ n ih =>
    intro s hs h
    cases s with
    | nil => rfl
    | cons c r =>
      by_cases hc1 : c = '\n'
      · subst hc1
        have hrw : replaceCRLF ('\n' :: r) = '\n' :: replaceCRLF r := by
          cases r <;> simp [replaceCRLF]
        rw [hrw]
        cases r with
        | nil => rfl
        | cons d r' =>
          have hr : noLoneCR (d :: r') = true := by simpa [noLoneCR] using h
          obtain ⟨e, t, hrep, hlws⟩ := replace_head_lws d r' hr
          have hrec : assembleRaw (replaceCRLF (d :: r')) = assembleRaw (d :: r') :=
            ih (d :: r') (by simp at hs ⊢; omega) hr
          rw [hrep] at hrec ⊢
          simp only [assembleRaw, hlws, hrec]
      · by_cases hc2 : c = '\r'
        · subst hc2
          cases r with
          | nil => simp [noLoneCR] at h
          | cons x r' =>
            by_cases hx : x = '\n'
            · subst hx
              have hrw : replaceCRLF ('\r' :: '\n' :: r') = '\n' :: replaceCRLF r' := by
                simp [replaceCRLF]
              rw [hrw]
              cases r' with
              | nil => rfl
              | cons d r'' =>
                have hr : noLoneCR (d :: r'') = true := by simpa [noLoneCR] using h
                obtain ⟨e, t, hrep, hlws⟩ := replace_head_lws d r'' hr
                have hrec : assembleRaw (replaceCRLF (d :: r'')) =
                    assembleRaw (d :: r'') :=
                  ih (d :: r'') (by simp at hs ⊢; omega) hr
                rw [hrep] at hrec ⊢
                simp only [assembleRaw, hlws, hrec]
            · simp [noLoneCR, hx] at h
        · have hrw : replaceCRLF (c :: r) = c :: replaceCRLF r := by
            cases r <;> simp [replaceCRLF, hc2]
          have hr : noLoneCR r = true := by simpa [noLoneCR, hc2] using h
          have hrec := ih r (by simp at hs ⊢; omega) hr
          rw [hrw, assembleRaw_cons_plain _ hc1 hc2,
            assembleRaw_cons_plain _ hc1 hc2, hrec]

/-! Supporting lemmas: splicing a line fold into the assembler's input. -/

theorem isCRLFb_of_isLWSc {d : Char} (hd : isLWSc d = true) : isCRLFb d = false := by
  simp only [isLWSc, Bool.or_eq_true, decide_eq_true_eq] at hd
  rcases hd with (rfl | rfl) | rfl <;> decide

/-- Inserting a CRLF immediately before an LWS byte, at a position whose
preceding byte is not CR/LF, does not change the assembled output: the
terminator is consumed and the LWS byte starts a fold. -/
theorem arh_splice_aux : ∀ (n : Nat) (u : List Char) (c : Char),
    u.length ≤ n → u.getLast? = some c → isCRLFb c = false →
    ∀ (d : Char) (w : List Char), isLWSc d = true →
    assembleRaw (u ++ '\r' :: '\n' :: d :: w) = assembleRaw (u ++ d :: w) := by
  intro n
  induction n with
  | zero =>
    intro u c hlen hlast hc d w hd
    cases u with
    | nil => simp at hlast
    | cons a t => simp at hlen
  | succ n ih =>
    intro u c hlen hlast hc d w hd
    cases u with
    | nil => simp at hlast
    | cons a t =>
      cases t with
      | nil =>
        have hac : a = c := by simpa using hlast
        subst hac
        have ha1 : a ≠ '\n' := by rintro rfl; simp [isCRLFb] at hc
        have ha2 : a ≠ '\r' := by rintro rfl; simp [isCRLFb] at hc
        simp only [List.cons_append, List.nil_append]
        rw [assembleRaw_cons_plain _ ha1 ha2, assembleRaw_cons_plain _ ha1 ha2,
          assembleRaw_crlf_cons, hd]
        simp
      | cons b t' =>
        have hlast' : (b :: t').getLast? = some c := by
          rw [← hlast]
          exact (List.getLast?_cons_cons ..).symm
        have hlen' : (b :: t').length ≤ n := by simp at hlen ⊢; omega
        have hrec := ih (b :: t') c hlen' hlast' hc d w hd
        simp only [List.cons_append] at hrec ⊢
        by_cases ha1 : a = '\n'
        · subst ha1
          simp only [assembleRaw, hrec]
        · by_cases ha2 : a = '\r'
          · subst ha2
            by_cases hb : b = '\n'
            · subst hb
              cases t' with
              | nil =>
                have : '\n' = c := by simpa using hlast'
                rw [← this] at hc
                simp [isCRLFb] at hc
              | cons e t'' =>
                have hlast'' : (e :: t'').getLast? = some c := by
                  rw [← hlast']
                  exact (List.getLast?_cons_cons ..).symm
                have hlen'' : (e :: t'').length ≤ n := by simp at hlen ⊢; omega
                have hrec2 := ih (e :: t'') c hlen'' hlast'' hc d w hd
                simp only [List.cons_append] at hrec2 ⊢
                simp only [assembleRaw, hrec2]
            · simp [assembleRaw, hb]
          · rw [assembleRaw_cons_plain _ ha1 ha2, assembleRaw_cons_plain _ ha1 ha2,
              hrec]

/-! The claim theorems. -/

/-- Claim C1: parsing the byte string
`INVITE sip:a@b SIP/2.0\r\nCSeq: 42 INVITE\r\n\r\n` returns `{ok, message}`
where the request line has method `invite`, request_uri `sip:a@b` and
version `(2,0)`, and the headers map binds `cseq` to `(42, invite)`. -/
theorem c1_invite_cseq_parse :
    Parse ("INVITE sip:a@b SIP/2.0\r\nCSeq: 42 INVITE\r\n\r\n".data) =
      .tup2 (.atom ("ok".data))
        (Term.ofMap
          [(.atom ("request_line".data),
            Term.ofMap
              [(.atom ("__struct__".data),
                .atom ("Elixir.Sippet.Message.RequestLine".data)),
               (.atom ("method".data), .atom ("invite".data)),
               (.atom ("request_uri".data), .str ("sip:a@b".data)),
               (.atom ("version".data), .tup2 (.int 2) (.int 0))]),
           (.atom ("headers".data),
            Term.ofMap
              [(.atom ("cseq".data),
                .tup2 (.int 42) (.atom ("invite".data)))])]) := by
  rfl

/-- Claim C2 is false as stated: for the comma-list `accept` grammar
(`MultipleTypeSubtypeParams`) with the literal values `a` and `b`, the
two-line input aborts with `multiple_definition` (the first line's value
parser returns the `missing_subtype` atom, which is stored as the header
value and is not a list), while the single comma-joined line parses
without that error, so the two inputs do not parse to the same value. -/
theorem c2_counterexample :
    Parse ("INVITE sip:a@b SIP/2.0\r\nAccept: a\r\nAccept: b\r\n\r\n".data) =
      .tup2 (.atom ("error".data)) (.atom ("multiple_definition".data)) ∧
    Parse ("INVITE sip:a@b SIP/2.0\r\nAccept: a, b\r\n\r\n".data) ≠
      .tup2 (.atom ("error".data)) (.atom ("multiple_definition".data)) := by
  exact ⟨by rfl, by decide⟩

/-- Claim C2 (amended): for every comma-list header grammar, when the two
occurrences' values are plain (no comma or quote bytes, LWS-trimmed,
CR/LF-free) and each parses without error to a list, a header name
appearing on two lines (`H: a` then `H: b`) parses to the same value under
that name as the single line `H: a, b`, with the values concatenated in
document order; and when a header name recurs but the value already stored
under it is not a list — a singular grammar's scalar or an error atom kept
as a value — parse returns `{error, multiple_definition}`. -/
theorem c2_comma_list_merge :
    (∀ (fmt : HFormat) (elem : List Char → Term) (h a b : List Char)
        (nt : Term) (la lb : List Term),
      commaElem fmt = some elem →
      headerResolve h = (nt, some fmt) →
      isTokenStr h = true →
      lineVal a → lineVal b →
      (∀ c ∈ a, plainValChar c) → (∀ c ∈ b, plainValChar c) →
      fmtParse fmt a = Term.ofList la →
      fmtParse fmt b = Term.ofList lb →
      Parse (mkTwo h a b) = Parse (mkOne h (a ++ ',' :: ' ' :: b)) ∧
      Parse (mkTwo h a b) =
        finishHeaders (some (.mcons nt (Term.ofList (la ++ lb)) .mnil))) ∧
    (∀ (fmt : HFormat) (h v1 v2 : List Char) (nt : Term),
      headerResolve h = (nt, some fmt) →
      isTokenStr h = true →
      lineVal v1 → lineVal v2 →
      (fmtParse fmt v1).isList = false →
      Parse (mkTwo h v1 v2) =
        .tup2 (.atom ("error".data)) (.atom ("multiple_definition".data))) := by
  constructor
  · intro fmt elem h a b nt la lb hfmt hres hh ha hb hpa hpb hla hlb
    have hfa : parseMultiple elem a = Term.ofList la := by
      rw [← fmtParse_comma hfmt a]; exact hla
    have hfb : parseMultiple elem b = Term.ofList lb := by
      rw [← fmtParse_comma hfmt b]; exact hlb
    obtain ⟨hata, hlaeq⟩ := parseMultiple_single_inv ha hpa hfa
    obtain ⟨hatb, hlbeq⟩ := parseMultiple_single_inv hb hpb hfb
    have hjoin : lineVal (a ++ ',' :: ' ' :: b) := lineVal_join ha hb
    have hsplit2 : splitValues (fun c => decide (c = ',')) (a ++ ',' :: ' ' :: b) =
        [a, b] :=
      splitValues_pair (by decide) (by decide)
        (fun c hc => ⟨by simpa using (hpa c hc).2.2.1, (hpa c hc).2.2.2⟩)
        (fun c hc => ⟨by simpa using (hpb c hc).2.2.1, (hpb c hc).2.2.2⟩) ha hb
    have hfj : fmtParse fmt (a ++ ',' :: ' ' :: b) = Term.ofList (la ++ lb) := by
      rw [fmtParse_comma hfmt]
      unfold parseMultiple
      rw [hsplit2,
        parseMultipleAux_cons_nonatom rfl hata [b] [],
        parseMultipleAux_cons_nonatom rfl hatb [] [elem a]]
      rw [hlaeq, hlbeq]
      rfl
    constructor
    · rw [parse_mkTwo hh ha hb, parse_mkOne hh hjoin,
        buildHeaders_pair_fmt hres a b hla hlb,
        buildHeaders_single_fmt hres, hfj]
    · rw [parse_mkTwo hh ha hb, buildHeaders_pair_fmt hres a b hla hlb]
  · intro fmt h v1 v2 nt hres hh hv1 hv2 hnl
    rw [parse_mkTwo hh hv1 hv2, buildHeaders_pair_nonlist hres v1 v2 hnl]
    rfl

/-- Witness for the amended C2 at concrete inputs: the `supported`
comma-token list merges `a` and `b` across two lines exactly as on one
line, and a repeated `CSeq` (a tuple-valued, non-list grammar) aborts with
`multiple_definition`. -/
theorem c2_comma_list_merge_witness :
    (Parse (mkTwo ("Supported".data) ['a'] ['b']) =
        Parse (mkOne ("Supported".data) ('a' :: ',' :: ' ' :: ['b'])) ∧
      Parse (mkTwo ("Supported".data) ['a'] ['b']) =
        finishHeaders (some (.mcons (.atom ("supported".data))
          (Term.ofList [.str ['a'], .str ['b']]) .mnil))) ∧
    Parse (mkTwo ("CSeq".data) ("1 INVITE".data) ("2 INVITE".data)) =
      .tup2 (.atom ("error".data)) (.atom ("multiple_definition".data)) := by
  constructor
  · exact c2_comma_list_merge.1 .MultipleTokens (fun x => (parseToken x).1)
      ("Supported".data) ['a'] ['b'] (.atom ("supported".data))
      [.str ['a']] [.str ['b']] rfl rfl (by decide) (by decide) (by decide)
      (by decide) (by decide) rfl rfl
  · exact c2_comma_list_merge.2 .Cseq ("CSeq".data) ("1 INVITE".data)
      ("2 INVITE".data) (.atom ("cseq".data)) rfl rfl (by decide) (by decide) rfl

/-- Claim C3 is false as stated: the input `\r\r\n` parses to
`{error, invalid_line_break}`, while replacing its CRLF pair by a bare LF
leaves `\r\n`, which parses to the `missing_method` atom instead. -/
theorem c3_counterexample :
    Parse (replaceCRLF ("\r\r\n".data)) ≠ Parse ("\r\r\n".data) := by
  decide

/-- Claim C3 (amended): for every input in which every CR is immediately
followed by LF, replacing every CRLF line terminator by a bare LF yields an
identical parse result; and every input containing a bare CR that is not
immediately followed by LF yields `{error, invalid_line_break}`. -/
theorem c3_line_terminators :
    (∀ s : List Char, noLoneCR s = true → Parse (replaceCRLF s) = Parse s) ∧
    (∀ s : List Char, noLoneCR s = false →
      Parse s = .tup2 (.atom ("error".data)) (.atom ("invalid_line_break".data))) := by
  constructor
  · intro s h
    have ha := arh_replace_aux s.length s (Nat.le_refl _) h
    unfold Parse
    rw [ha]
  · intro s h
    have ha := arh_none_of_loneCR s.length s (Nat.le_refl _) h
    unfold Parse
    rw [ha]

/-- Witness for the amended C3: the E1 message with CRLF terminators parses
identically after replacement by bare LFs, and the lone-CR input `a\rb`
yields `{error, invalid_line_break}`. -/
theorem c3_line_terminators_witness :
    Parse (replaceCRLF ("INVITE sip:a@b SIP/2.0\r\nCSeq: 42 INVITE\r\n\r\n".data)) =
      Parse ("INVITE sip:a@b SIP/2.0\r\nCSeq: 42 INVITE\r\n\r\n".data) ∧
    Parse ("a\rb".data) =
      .tup2 (.atom ("error".data)) (.atom ("invalid_line_break".data)) := by
  exact ⟨c3_line_terminators.1 _ (by decide), c3_line_terminators.2 _ (by decide)⟩

/-- Claim C4 is false as stated: appending the continuation
`\r\n \tworld` to the header line `Subject: hello` yields the value
`hello \tworld` — the fold's literal LWS bytes are kept — which differs
from the parse of `Subject: hello world`, the value with the text appended
after a single space that the claim predicts. -/
theorem c4_counterexample :
    Parse ("INVITE sip:a@b SIP/2.0\r\nSubject: hello\r\n \tworld\r\n\r\n".data) =
      finishHeaders (some (Term.ofMap
        [(.atom ("subject".data), .str ("hello \tworld".data))])) ∧
    Parse ("INVITE sip:a@b SIP/2.0\r\nSubject: hello world\r\n\r\n".data) =
      finishHeaders (some (Term.ofMap
        [(.atom ("subject".data), .str ("hello world".data))])) ∧
    ("hello \tworld".data) ≠ ("hello world".data) := by
  exact ⟨by rfl, by rfl, by decide⟩

theorem lineVal_fold_join {v t : List Char} (hv : lineVal v) (ht : lineVal t) :
    lineVal (v ++ ' ' :: '\t' :: t) := by
  obtain ⟨hvne, hvh, hvl, hvcr⟩ := hv
  obtain ⟨htne, hth, htl, htcr⟩ := ht
  refine ⟨by simp, ?_, ?_, ?_⟩
  · unfold headNotLWS
    rw [head?_append_left _ hvne]
    unfold headNotLWS at hvh
    exact hvh
  · unfold headNotLWS
    rw [show (v ++ ' ' :: '\t' :: t).reverse = t.reverse ++ ('\t' :: ' ' :: v.reverse) from by
      simp]
    rw [head?_append_left _ (by simpa using htne)]
    unfold headNotLWS at htl
    exact htl
  · intro c hc
    rcases List.mem_append.mp hc with hm | hm
    · exact hvcr c hm
    · rcases List.mem_cons.mp hm with rfl | hm
      · decide
      · rcases List.mem_cons.mp hm with rfl | hm
        · decide
        · exact htcr c hm

/-- Claim C4 (amended): appending the continuation `\r\n \t<text>` to a
header line parses exactly as writing ` \t<text>` inline at the end of
that line: the fold's terminator is deleted but its literal LWS bytes are
kept, so `<text>` is appended to the header's value after the space-tab
pair rather than after a single space.  The general clause holds for any
input position whose preceding byte is not CR or LF; the second clause
shows the resulting `subject` value for a folded `Subject` header. -/
theorem c4_line_fold :
    (∀ (u : List Char) (c : Char) (w : List Char),
      u.getLast? = some c → isCRLFb c = false →
      Parse (u ++ '\r' :: '\n' :: ' ' :: '\t' :: w) =
        Parse (u ++ ' ' :: '\t' :: w)) ∧
    (∀ v t : List Char, lineVal v → lineVal t →
      Parse (reqLine ++ crlf ++ mkHeaderLine ("Subject".data) v ++
          '\r' :: '\n' :: ' ' :: '\t' :: (t ++ crlf ++ crlf)) =
        finishHeaders (some (.mcons (.atom ("subject".data))
          (.str (v ++ ' ' :: '\t' :: t)) .mnil))) := by
  have main : ∀ (u : List Char) (c : Char) (w : List Char),
      u.getLast? = some c → isCRLFb c = false →
      Parse (u ++ '\r' :: '\n' :: ' ' :: '\t' :: w) =
        Parse (u ++ ' ' :: '\t' :: w) := by
    intro u c w hlast hc
    have ha := arh_splice_aux u.length u c (Nat.le_refl _) hlast hc ' ' ('\t' :: w)
      (by decide)
    unfold Parse
    rw [ha]
  refine ⟨main, ?_⟩
  intro v t hv ht
  have hvj : lineVal (v ++ ' ' :: '\t' :: t) := lineVal_fold_join hv ht
  obtain ⟨cv, hcv⟩ : ∃ cv, v.getLast? = some cv := by
    cases hl : v.getLast? with
    | none => exact absurd (List.getLast?_eq_none_iff.mp hl) hv.1
    | some cv => exact ⟨cv, rfl⟩
  have hcvcr : isCRLFb cv = false :=
    hv.2.2.2 cv (List.mem_of_mem_getLast? hcv)
  have hulast : (reqLine ++ crlf ++ mkHeaderLine ("Subject".data) v).getLast? =
      some cv := by
    rw [List.getLast?_append_of_ne_nil _ (by
      unfold mkHeaderLine
      simp)]
    unfold mkHeaderLine
    rw [show ':' :: ' ' :: v = [':', ' '] ++ v from rfl,
      List.getLast?_append_of_ne_nil _ (by simp [hv.1]),
      List.getLast?_append_of_ne_nil _ hv.1]
    exact hcv
  rw [main _ cv _ hulast hcvcr]
  have hshape : reqLine ++ crlf ++ mkHeaderLine ("Subject".data) v ++
      ' ' :: '\t' :: (t ++ crlf ++ crlf) =
      mkOne ("Subject".data) (v ++ ' ' :: '\t' :: t) := by
    unfold mkOne mkHeaderLine crlf
    simp
  rw [hshape, parse_mkOne (by decide) hvj,
    buildHeaders_single_fmt (by rfl) (v ++ ' ' :: '\t' :: t)]
  show finishHeaders (some (.mcons _ (parseTrimmedUtf8 _) _)) = _
  unfold parseTrimmedUtf8
  rw [lineVal_trim hvj]
  rfl

/-- Witness for the amended C4 at concrete inputs: folding
`Subject: hello` with `\r\n \tworld` equals the inline ` \tworld` form,
whose subject value is `hello \tworld`. -/
theorem c4_line_fold_witness :
    Parse ("INVITE sip:a@b SIP/2.0\r\nSubject: hello".data ++
        '\r' :: '\n' :: ' ' :: '\t' :: ("world\r\n\r\n".data)) =
      Parse ("INVITE sip:a@b SIP/2.0\r\nSubject: hello".data ++
        ' ' :: '\t' :: ("world\r\n\r\n".data)) ∧
    Parse (reqLine ++ crlf ++ mkHeaderLine ("Subject".data) ("hello".data) ++
        '\r' :: '\n' :: ' ' :: '\t' :: (("world".data) ++ crlf ++ crlf)) =
      finishHeaders (some (.mcons (.atom ("subject".data))
        (.str ("hello \tworld".data)) .mnil)) := by
  constructor
  · exact c4_line_fold.1 ("INVITE sip:a@b SIP/2.0\r\nSubject: hello".data) 'o'
      ("world\r\n\r\n".data) (by decide) (by decide)
  · have := c4_line_fold.2 ("hello".data) ("world".data) (by decide) (by decide)
    simpa using this

/-- Claim C5 is false as stated: the header line `foo : v` has the name
region `foo ` before the colon, which contains the non-token byte `' '`,
yet the iterator does not skip it — it trims the name and yields
`("foo", "v")`, and the surrounding message keeps the header. -/
theorem c5_counterexample :
    lineParse ("foo : v".data) = some (("foo".data), ("v".data)) ∧
    ("foo ".data).all isTokenChar = false ∧
    Parse ("INVITE sip:a@b SIP/2.0\r\nfoo : v\r\n\r\n".data) =
      finishHeaders (some (Term.ofMap
        [(.str ("foo".data), Term.ofList [.str ("v".data)])])) := by
  exact ⟨by rfl, by rfl, by rfl⟩

theorem headNotLWS_trimLWS (x : List Char) : headNotLWS (trimLWS x) = true := by
  unfold headNotLWS
  cases hh : (trimLWS x).head? with
  | none => rfl
  | some c => simp [head?_trimLWS hh]

theorem headNotLWS_rev_trimLWS (x : List Char) :
    headNotLWS (trimLWS x).reverse = true := by
  unfold headNotLWS
  cases hh : (trimLWS x).reverse.head? with
  | none => rfl
  | some c =>
    rw [List.head?_reverse] at hh
    simp [getLast?_trimLWS hh]

theorem dropWhile_all_true {p : Char → Bool} {x : List Char}
    (h : ∀ c ∈ x, p c = true) : x.dropWhile p = [] := by
  induction x with
  | nil => rfl
  | cons c t ih => simp [List.dropWhile_cons, h c (by simp),
      ih (fun a ha => h a (by simp [ha]))]

theorem assembleRaw_mkBad {bad h v : List Char} (hbne : bad ≠ [])
    (hbcr : ∀ c ∈ bad, isCRLFb c = false) (hbh : headNotLWS bad = true)
    (hh : isTokenStr h = true) (hv : lineVal v) :
    assembleRaw (mkBad bad h v) =
      some (reqLine ++ '\n' :: (bad ++ '\n' ::
        (mkHeaderLine h v ++ ['\n']))) := by
  obtain ⟨hne, htok⟩ := isTokenStr_facts hh
  obtain ⟨c0, t0, hc0⟩ := List.exists_cons_of_ne_nil hne
  obtain ⟨b0, s0, hb0⟩ := List.exists_cons_of_ne_nil hbne
  have hd0 : isLWSc c0 = false := by
    rw [hc0] at htok
    exact (tokenChar_facts (htok c0 (by simp))).1
  have hdb : isLWSc b0 = false := by
    rw [hb0] at hbh
    simpa [headNotLWS] using hbh
  have hreq : ∀ c ∈ reqLine, isCRLFb c = false := by decide
  have hfree : ∀ a ∈ mkHeaderLine h v, isCRLFb a = false := by
    intro a hahl
    unfold mkHeaderLine at hahl
    rcases List.mem_append.mp hahl with hmem | hmem
    · exact (tokenChar_facts (htok a hmem)).2.2.1
    · rcases List.mem_cons.mp hmem with rfl | hmem
      · decide
      · rcases List.mem_cons.mp hmem with rfl | hmem
        · decide
        · exact hv.2.2.2 a hmem
  have hinner : assembleRaw (mkHeaderLine h v ++ '\r' :: '\n' :: '\r' :: '\n' :: []) =
      some (mkHeaderLine h v ++ ['\n']) := by
    rw [assembleRaw_line_cons '\r' ('\n' :: []) hfree (by decide)]
    rfl
  have hhead : mkHeaderLine h v ++ '\r' :: '\n' :: '\r' :: '\n' :: [] =
      c0 :: (t0 ++ ':' :: ' ' :: v ++ '\r' :: '\n' :: '\r' :: '\n' :: []) := by
    unfold mkHeaderLine
    rw [hc0]
    simp
  have hmid : assembleRaw (bad ++ '\r' :: '\n' ::
      (mkHeaderLine h v ++ '\r' :: '\n' :: '\r' :: '\n' :: [])) =
      some (bad ++ '\n' :: (mkHeaderLine h v ++ ['\n'])) := by
    rw [hhead, assembleRaw_line_cons _ _ hbcr hd0, ← hhead, hinner]
    rfl
  have hmidhead : bad ++ '\r' :: '\n' ::
      (mkHeaderLine h v ++ '\r' :: '\n' :: '\r' :: '\n' :: []) =
      b0 :: (s0 ++ '\r' :: '\n' ::
        (mkHeaderLine h v ++ '\r' :: '\n' :: '\r' :: '\n' :: [])) := by
    rw [hb0]
    simp
  have hshape : mkBad bad h v =
      reqLine ++ '\r' :: '\n' :: (bad ++ '\r' :: '\n' ::
        (mkHeaderLine h v ++ '\r' :: '\n' :: '\r' :: '\n' :: [])) := by
    unfold mkBad crlf
    simp
  rw [hshape, hmidhead, assembleRaw_line_cons _ _ hreq hdb, ← hmidhead, hmid]
  rfl

/-- Claim C5 (amended): a header-block line is skipped by the iterator —
without error — exactly when it lacks a colon, or its raw name region
before the colon is empty or starts with LWS, or its LWS-trimmed name is
not a token (a name with only *surrounding* LWS around token bytes is
trimmed and accepted, not skipped); every yielded name is a token and both
the yielded name and value carry no leading or trailing LWS; and inserting
a colon-less line into a message leaves the parse of the surrounding
message unchanged and successful. -/
theorem c5_malformed_lines :
    (∀ l : List Char,
      lineParse l = none ↔
        ((l.dropWhile (fun c => decide (c ≠ ':'))).isEmpty = true ∨
         (l.takeWhile (fun c => decide (c ≠ ':'))).isEmpty = true ∨
         headNotLWS (l.takeWhile (fun c => decide (c ≠ ':'))) = false ∨
         isTokenStr (trimLWS (l.takeWhile (fun c => decide (c ≠ ':')))) = false)) ∧
    (∀ (l n v : List Char), lineParse l = some (n, v) →
      isTokenStr n = true ∧
      headNotLWS n = true ∧ headNotLWS n.reverse = true ∧
      headNotLWS v = true ∧ headNotLWS v.reverse = true) ∧
    (∀ (bad h v : List Char), bad ≠ [] →
      (∀ c ∈ bad, isCRLFb c = false) → (∀ c ∈ bad, c ≠ ':') →
      headNotLWS bad = true → isTokenStr h = true → lineVal v →
      Parse (mkBad bad h v) = Parse (mkOne h v)) := by
  refine ⟨?_, ?_, ?_⟩
  · intro l
    unfold lineParse
    split_ifs with h1 h2 h3 h4
    · exact iff_of_true rfl (Or.inl h1)
    · exact iff_of_true rfl (Or.inr (Or.inl h2))
    · exact iff_of_true rfl (Or.inr (Or.inr (Or.inl (by simpa using h3))))
    · exact iff_of_true rfl (Or.inr (Or.inr (Or.inr (by simpa using h4))))
    · refine iff_of_false (by simp) ?_
      rintro (hd | hd | hd | hd)
      · exact h1 hd
      · exact h2 hd
      · exact h3 (by rw [hd]; rfl)
      · exact h4 (by rw [hd]; rfl)
  · intro l n v hl
    unfold lineParse at hl
    split_ifs at hl
    obtain ⟨hn, hv⟩ : trimLWS (l.takeWhile (fun c => decide (c ≠ ':'))) = n ∧
        trimLWS ((l.dropWhile (fun c => decide (c ≠ ':'))).drop 1) = v := by
      constructor <;> · injection hl with hl'; cases hl'; rfl
    subst hn
    subst hv
    refine ⟨by simpa [Bool.not_eq_true'] using (by assumption :
        ¬(!isTokenStr (trimLWS (l.takeWhile (fun c => decide (c ≠ ':'))))) = true),
      headNotLWS_trimLWS _, headNotLWS_rev_trimLWS _,
      headNotLWS_trimLWS _, headNotLWS_rev_trimLWS _⟩
  · intro bad h v hbne hbcr hbcolon hbh hh hv
    rw [parse_req_block _ _ (assembleRaw_mkBad hbne hbcr hbh hh hv),
      parse_mkOne hh hv]
    obtain ⟨hne, htok⟩ := isTokenStr_facts hh
    have hbfree : ∀ a ∈ bad, isCRLFb a = false := hbcr
    have hbad : lineParse bad = none := by
      unfold lineParse
      rw [dropWhile_all_true (p := fun c => decide (c ≠ ':'))
        (fun c hc => by simpa using hbcolon c hc)]
      simp
    have hblock : headerEntries (bad ++ '\n' :: (mkHeaderLine h v ++ ['\n'])) =
        [(h, v)] := by
      unfold headerEntries
      rw [splitRuns_cons_line _ hbfree (by decide) hbne]
      have h1 := headerEntries_one hh hv
      unfold headerEntries at h1
      simp only [List.filterMap_cons, hbad, h1]
    rw [hblock]

/-- Witness for the amended C5: the line `foo : v` (trailing LWS inside the
raw name) is yielded trimmed, the colon-less line `garbage` is skipped, and
inserting `garbage` before `Subject: hi` leaves the parse unchanged. -/
theorem c5_malformed_lines_witness :
    (lineParse ("garbage".data) = none ↔
        ((("garbage".data).dropWhile (fun c => decide (c ≠ ':'))).isEmpty = true ∨
         ((("garbage".data)).takeWhile (fun c => decide (c ≠ ':'))).isEmpty = true ∨
         headNotLWS (("garbage".data).takeWhile (fun c => decide (c ≠ ':'))) = false ∨
         isTokenStr (trimLWS (("garbage".data).takeWhile
           (fun c => decide (c ≠ ':')))) = false)) ∧
    (isTokenStr ("foo".data) = true ∧
      headNotLWS ("foo".data) = true ∧ headNotLWS ("foo".data).reverse = true ∧
      headNotLWS ("v".data) = true ∧ headNotLWS ("v".data).reverse = true) ∧
    Parse (mkBad ("garbage".data) ("Subject".data) ("hi".data)) =
      Parse (mkOne ("Subject".data) ("hi".data)) := by
  refine ⟨c5_malformed_lines.1 ("garbage".data), ?_, ?_⟩
  · exact c5_malformed_lines.2.1 ("foo : v".data) ("foo".data) ("v".data) (by rfl)
  · exact c5_malformed_lines.2.2 ("garbage".data) ("Subject".data) ("hi".data)
      (by decide) (by decide) (by decide) (by decide) (by decide) (by decide)

/-- Claim C6 is false as stated: `h:2147483648` has the shape `host:port`
with an all-digit port, yet the call fails (the digits overflow the 32-bit
`int` of `StringToInt`); and `:80`, whose host part is empty rather than a
name or address literal, succeeds. -/
theorem c6_counterexample :
    parseHostAndPort ("h:2147483648".data) = none ∧
    ("2147483648".data).all isDigitB = true ∧
    parseHostAndPort (":80".data) = some ([], 80) := by
  exact ⟨by rfl, by rfl, by rfl⟩

theorem digitChar_facts {c : Char} (hc : isDigitB c = true) :
    isSpaceB c = false ∧ c ≠ '-' ∧ c ≠ '+' := by
  have h1 : c ≠ ' ' := by rintro rfl; revert hc; decide
  have h2 : c ≠ '\t' := by rintro rfl; revert hc; decide
  have h3 : c ≠ '\n' := by rintro rfl; revert hc; decide
  have h4 : c ≠ '\x0b' := by rintro rfl; revert hc; decide
  have h5 : c ≠ '\x0c' := by rintro rfl; revert hc; decide
  have h6 : c ≠ '\r' := by rintro rfl; revert hc; decide
  have h7 : c ≠ '-' := by rintro rfl; revert hc; decide
  have h8 : c ≠ '+' := by rintro rfl; revert hc; decide
  exact ⟨by simp [isSpaceB, h1, h2, h3, h4, h5, h6], h7, h8⟩

/-- `StringToInt` on a nonempty all-digit run is its value when it fits. -/
theorem stringToInt_digits {ds : List Char} (hne : ds ≠ [])
    (hall : ds.all isDigitB = true) :
    stringToInt ds =
      if digitsVal ds ≤ 2 ^ 31 - 1 then some ((digitsVal ds : Int)) else none := by
  obtain ⟨c, t, rfl⟩ := List.exists_cons_of_ne_nil hne
  have hc : isDigitB c = true := List.all_eq_true.mp hall c (by simp)
  obtain ⟨hsp, hm, hp⟩ := digitChar_facts hc
  simp only [stringToInt, hsp, Bool.false_eq_true, if_false, hm, hp, hall,
    Bool.true_and]
  by_cases hfit : digitsVal (c :: t) ≤ 2 ^ 31 - 1
  · rw [if_pos (decide_eq_true hfit), if_pos hfit]
  · rw [if_neg (by simpa using hfit), if_neg hfit]

theorem mem_takeWhile_ne {p : Char → Bool} {l : List Char} {c : Char}
    (h : c ∈ l.takeWhile p) : p c = true := by
  induction l with
  | nil => simp at h
  | cons a t ih =>
    rw [List.takeWhile_cons] at h
    by_cases hp : p a
    · simp only [hp, if_true] at h
      rcases List.mem_cons.mp h with rfl | h
      · exact hp
      · exact ih h
    · simp [hp] at h

/-- The port tail succeeds exactly when the remainder has one of the three
accepted port shapes, and it passes the host through untouched. -/
theorem portCont_eq_some (host rest : List Char) (h : List Char) (p : Int) :
    portCont host rest = some (h, p) ↔ (h = host ∧ portShape rest p) := by
  constructor
  · intro hm
    cases rest with
    | nil =>
      rw [show portCont host [] = some (host, -1) from rfl] at hm
      simp only [Option.some.injEq, Prod.mk.injEq] at hm
      exact ⟨hm.1.symm, Or.inl ⟨rfl, hm.2.symm⟩⟩
    | cons c ds =>
      simp only [portCont] at hm
      by_cases hc : c = ':'
      · subst hc
        rw [if_pos rfl] at hm
        by_cases hall : ds.all isDigitB
        · rw [if_pos hall] at hm
          by_cases hdse : ds.isEmpty
          · rw [if_pos hdse] at hm
            simp only [Option.some.injEq, Prod.mk.injEq] at hm
            refine ⟨hm.1.symm, Or.inr (Or.inl ⟨?_, hm.2.symm⟩)⟩
            rw [List.isEmpty_iff.mp hdse]
          · rw [if_neg hdse] at hm
            have hdne : ds ≠ [] := by simpa [List.isEmpty_iff] using hdse
            rw [stringToInt_digits hdne hall] at hm
            by_cases hfit : digitsVal ds ≤ 2 ^ 31 - 1
            · rw [if_pos hfit] at hm
              simp only [Option.some.injEq, Prod.mk.injEq] at hm
              exact ⟨hm.1.symm,
                Or.inr (Or.inr ⟨ds, rfl, hdne, hall, hfit, hm.2.symm⟩)⟩
            · rw [if_neg hfit] at hm
              simp at hm
        · rw [if_neg hall] at hm
          simp at hm
      · rw [if_neg hc] at hm
        simp at hm
  · rintro ⟨rfl, (⟨rfl, rfl⟩ | ⟨rfl, rfl⟩ | ⟨ds, rfl, hdne, hall, hfit, rfl⟩)⟩
    · rfl
    · rfl
    · rw [show portCont h (':' :: ds) =
          (if ds.all isDigitB then
             if ds.isEmpty then some (h, -1)
             else
               match stringToInt ds with
               | some q => some (h, q)
               | none => none
           else none) from rfl,
        if_pos hall, if_neg (by simpa [List.isEmpty_iff] using hdne),
        stringToInt_digits hdne hall, if_pos hfit]

/-- On a nonempty input not starting with `[`, `ParseHostAndPort` is the
colon split followed by the port tail. -/
theorem parseHostAndPort_nonbracket (s : List Char) (hne : s ≠ [])
    (hh : s.head? ≠ some '[') :
    parseHostAndPort s =
      portCont (s.takeWhile (fun c => decide (c ≠ ':')))
        (s.dropWhile (fun c => decide (c ≠ ':'))) := by
  obtain ⟨c0, tl, rfl⟩ := List.exists_cons_of_ne_nil hne
  have h0 : c0 ≠ '[' := by
    intro h
    exact hh (by simp [h])
  simp only [parseHostAndPort]
  rw [if_neg h0]

/-- Claim C6 (amended): `ParseHostAndPort` succeeds exactly on byte ranges
of shape `host` or `host:port`, where `host` is either a bracketed
`]`-closed literal — after whose `]` only the port region may follow — or
the maximal colon-free prefix, which is not otherwise validated (it may be
empty or arbitrary non-colon bytes); a present port must be all digits and
its value fit a signed 32-bit int, and it is returned as that integer; an
absent or empty port is returned as `-1`; and the returned host of a
bracketed literal still carries its brackets. -/
theorem c6_host_and_port : ∀ (s h : List Char) (p : Int),
    parseHostAndPort s = some (h, p) ↔
      ((∃ u rest, s = '[' :: (u ++ ']' :: rest) ∧ (∀ c ∈ u, c ≠ ']') ∧
          h = '[' :: (u ++ [']']) ∧ portShape rest p) ∨
       (s ≠ [] ∧ s.head? ≠ some '[' ∧ (∀ c ∈ h, c ≠ ':') ∧
          ∃ rest, s = h ++ rest ∧ portShape rest p)) := by
  intro s h p
  constructor
  · intro hm
    cases s with
    | nil => simp [parseHostAndPort] at hm
    | cons c0 tl =>
      by_cases h0 : c0 = '['
      · subst h0
        left
        simp only [parseHostAndPort] at hm
        rw [if_pos trivial] at hm
        have hdwc : ('[' :: tl).dropWhile (fun c => decide (c ≠ ']')) =
            tl.dropWhile (fun c => decide (c ≠ ']')) := by
          rw [List.dropWhile_cons, if_pos (by decide)]
        have htwc : ('[' :: tl).takeWhile (fun c => decide (c ≠ ']')) =
            '[' :: tl.takeWhile (fun c => decide (c ≠ ']')) := by
          rw [List.takeWhile_cons, if_pos (by decide)]
        rw [hdwc, htwc] at hm
        cases hd : tl.dropWhile (fun c => decide (c ≠ ']')) with
        | nil =>
          rw [hd] at hm
          simp at hm
        | cons e r =>
          rw [hd] at hm
          have he : e = ']' := by
            have := head?_dropWhile (l := tl)
              (p := fun c => decide (c ≠ ']')) (c := e) (by rw [hd]; rfl)
            simpa using this
          subst he
          obtain ⟨hhh, hps⟩ := (portCont_eq_some _ _ _ _).mp hm
          refine ⟨tl.takeWhile (fun c => decide (c ≠ ']')), r, ?_, ?_, ?_, hps⟩
          · have h2 : tl.takeWhile (fun c => decide (c ≠ ']')) ++ ']' :: r = tl := by
              rw [← hd]
              exact List.takeWhile_append_dropWhile _ _
            rw [h2]
          · intro c hc
            exact of_decide_eq_true (mem_takeWhile_ne hc)
          · rw [hhh]
            rfl
      · right
        simp only [parseHostAndPort] at hm
        rw [if_neg h0] at hm
        obtain ⟨hhh, hps⟩ := (portCont_eq_some _ _ _ _).mp hm
        refine ⟨by simp, by simpa using h0, ?_,
          (c0 :: tl).dropWhile (fun c => decide (c ≠ ':')), ?_, hps⟩
        · intro c hc
          rw [hhh] at hc
          exact of_decide_eq_true (mem_takeWhile_ne hc)
        · rw [hhh]
          exact (List.takeWhile_append_dropWhile _ _).symm
  · rintro (⟨u, rest, rfl, hu, rfl, hps⟩ | ⟨hne, hhead, hcol, rest, rfl, hps⟩)
    · simp only [parseHostAndPort]
      rw [if_pos trivial]
      have hsplit : ('[' : Char) :: (u ++ ']' :: rest) =
          ('[' :: u) ++ (']' :: rest) := by simp
      have hall : ∀ c ∈ '[' :: u, (fun c => decide (c ≠ ']')) c = true := by
        intro c hc
        rcases List.mem_cons.mp hc with rfl | hc
        · decide
        · exact decide_eq_true (hu c hc)
      have hdw : ('[' :: (u ++ ']' :: rest)).dropWhile
          (fun c => decide (c ≠ ']')) = ']' :: rest := by
        rw [hsplit, dropWhile_all_append _ hall, List.dropWhile_cons,
          if_neg (by decide)]
      have htw : ('[' :: (u ++ ']' :: rest)).takeWhile
          (fun c => decide (c ≠ ']')) = '[' :: u := by
        rw [hsplit, takeWhile_all_append _ hall, List.takeWhile_cons,
          if_neg (by decide)]
        simp
      rw [hdw, htw]
      exact (portCont_eq_some _ _ _ _).mpr ⟨rfl, hps⟩
    · rw [parseHostAndPort_nonbracket _ hne hhead]
      have hcol' : ∀ c ∈ h, (fun c => decide (c ≠ ':')) c = true :=
        fun c hc => decide_eq_true (hcol c hc)
      have hrest : rest.takeWhile (fun c => decide (c ≠ ':')) = [] ∧
          rest.dropWhile (fun c => decide (c ≠ ':')) = rest := by
        rcases hps with ⟨rfl, _⟩ | ⟨rfl, _⟩ | ⟨ds, rfl, _, _, _, _⟩
        · exact ⟨rfl, rfl⟩
        · exact ⟨rfl, rfl⟩
        · constructor
          · rw [List.takeWhile_cons, if_neg (by decide)]
          · rw [List.dropWhile_cons, if_neg (by decide)]
      have htw : (h ++ rest).takeWhile (fun c => decide (c ≠ ':')) = h := by
        rw [takeWhile_all_append _ hcol', hrest.1, List.append_nil]
      have hdw : (h ++ rest).dropWhile (fun c => decide (c ≠ ':')) = rest := by
        rw [dropWhile_all_append _ hcol', hrest.2]
      rw [htw, hdw]
      exact (portCont_eq_some _ _ _ _).mpr ⟨rfl, hps⟩

/-- Claim C7 is false as stated: when the leading SIP keyword is absent the
version parser returns the atom `missing_status_line`, not
`missing_version_spec`. -/
theorem c7_counterexample :
    parseVersion ("xyz/2.0".data) = .atom ("missing_status_line".data) ∧
    ("missing_status_line".data) ≠ ("missing_version_spec".data) := by
  exact ⟨by rfl, by decide⟩

theorem isTokLWS_facts {c : Char} (h : isTokLWS c = true) :
    c ≠ '/' ∧ c ≠ '.' ∧ c ≠ ';' ∧ c ≠ ':' ∧ c ≠ ',' := by
  have hc : c = ' ' ∨ c = '\t' := by simpa [isTokLWS] using h
  rcases hc with rfl | rfl
  · exact ⟨by decide, by decide, by decide, by decide, by decide⟩
  · exact ⟨by decide, by decide, by decide, by decide, by decide⟩

theorem digit_not_lws {c : Char} (h : isDigitB c = true) : isTokLWS c = false := by
  have h1 : c ≠ ' ' := by rintro rfl; revert h; decide
  have h2 : c ≠ '\t' := by rintro rfl; revert h; decide
  simp [isTokLWS, h1, h2]

theorem takeWhile_head_false {p : Char → Bool} {c : Char} (t : List Char)
    (h : p c = false) : (c :: t).takeWhile p = [] := by
  rw [List.takeWhile_cons, if_neg (by simp [h])]

theorem dropWhile_head_false {p : Char → Bool} {c : Char} (t : List Char)
    (h : p c = false) : (c :: t).dropWhile p = c :: t := by
  rw [List.dropWhile_cons, if_neg (by simp [h])]

theorem takeWhile_all_false {p : Char → Bool} {x : List Char}
    (h : ∀ c ∈ x, p c = false) : x.takeWhile p = [] := by
  cases x with
  | nil => rfl
  | cons a t => exact takeWhile_head_false t (h a (by simp))

theorem dropWhile_append_cases {p : Char → Bool} (x y : List Char) :
    ((x ++ y).dropWhile p = x.dropWhile p ++ y) ∨
    ((x ++ y).dropWhile p = y.dropWhile p ∧ x.dropWhile p = []) := by
  induction x with
  | nil => exact Or.inr ⟨rfl, rfl⟩
  | cons a t ih =>
    by_cases hp : p a = true
    · rcases ih with h | ⟨h1, h2⟩
      · left
        rw [List.cons_append, List.dropWhile_cons, if_pos hp, h,
          List.dropWhile_cons, if_pos hp]
      · refine Or.inr ⟨?_, ?_⟩
        · rw [List.cons_append, List.dropWhile_cons, if_pos hp, h1]
        · rw [List.dropWhile_cons, if_pos hp, h2]
    · left
      have hp' : p a = false := by simpa using hp
      rw [List.cons_append, dropWhile_head_false _ hp', dropWhile_head_false _ hp']
      rfl

/-- `ParseVersion` after a verified case-insensitive `SIP` prefix. -/
theorem parseVersion_tail (p t : List Char) (hp3 : p.length = 3)
    (hpsip : p.map toLowerASCII = ("sip".data)) :
    parseVersion (p ++ t) =
      (match t.dropWhile isTokLWS with
       | [] => Term.atom ("missing_version".data)
       | c :: rest =>
         if c ≠ '/' then Term.atom ("missing_version".data)
         else
           let r3 := rest.dropWhile isTokLWS
           let r6 := (((r3.dropWhile (fun x => x ≠ '.')).drop 1).dropWhile isTokLWS)
           match r6, r3 with
           | [], _ => Term.atom ("malformed_version".data)
           | nc :: _, mc :: _ =>
             if !isDigitB mc || !isDigitB nc then
               Term.atom ("malformed_version_number".data)
             else Term.tup2 (.int (mc.toNat - 48)) (.int (nc.toNat - 48))
           | _ :: _, [] => Term.atom ("malformed_version".data)) := by
  have htake : (p ++ t).take 3 = p := by rw [← hp3, List.take_left]
  have hdrop : (p ++ t).drop 3 = t := by rw [← hp3, List.drop_left]
  have hcond :
      ¬ ((p ++ t).length < 3 ∨
         ((p ++ t).take 3).map toLowerASCII ≠ ("sip".data)) := by
    rintro (h | h)
    · rw [List.length_append, hp3] at h
      omega
    · exact h (by rw [htake, hpsip])
  simp only [parseVersion]
  rw [if_neg hcond, hdrop]

/-- Specialization of `parseVersion_tail` when the LWS skip after `SIP`
stops at a known first byte. -/
theorem parseVersion_tail_cons (p t : List Char) (c : Char) (rest : List Char)
    (hp3 : p.length = 3) (hpsip : p.map toLowerASCII = ("sip".data))
    (ht : t.dropWhile isTokLWS = c :: rest) :
    parseVersion (p ++ t) =
      (if c ≠ '/' then Term.atom ("missing_version".data)
       else
         match ((((rest.dropWhile isTokLWS).dropWhile
               (fun x => x ≠ '.')).drop 1).dropWhile isTokLWS),
             (rest.dropWhile isTokLWS) with
         | [], _ => Term.atom ("malformed_version".data)
         | nc :: _, mc :: _ =>
           if !isDigitB mc || !isDigitB nc then
             Term.atom ("malformed_version_number".data)
           else Term.tup2 (.int (mc.toNat - 48)) (.int (nc.toNat - 48))
         | _ :: _, [] => Term.atom ("malformed_version".data)) := by
  rw [parseVersion_tail p t hp3 hpsip, ht]

/-- Claim C7 (amended): the version parser yields a distinct code at each
malformed step — the atom `missing_status_line` (not `missing_version_spec`)
when the leading case-insensitive `SIP` keyword is absent, `missing_version`
when the `/` after `SIP` is absent, `malformed_version` when the input ends
before the minor digit position, and `malformed_version_number` when the
major or minor position does not hold a digit — and otherwise it returns
the `(major, minor)` digit pair. -/
theorem c7_version_errors :
    (∀ s : List Char,
       s.length < 3 ∨ (s.take 3).map toLowerASCII ≠ ("sip".data) →
       parseVersion s = .atom ("missing_status_line".data)) ∧
    (∀ p w1 : List Char, p.length = 3 → p.map toLowerASCII = ("sip".data) →
       (∀ c ∈ w1, isTokLWS c = true) →
       parseVersion (p ++ w1) = .atom ("missing_version".data) ∧
       ∀ (c : Char) (tail : List Char), isTokLWS c = false → c ≠ '/' →
         parseVersion (p ++ (w1 ++ c :: tail)) = .atom ("missing_version".data)) ∧
    (∀ p w1 rest : List Char, p.length = 3 →
       p.map toLowerASCII = ("sip".data) →
       (∀ c ∈ w1, isTokLWS c = true) →
       ((∀ c ∈ rest, c ≠ '.') ∨
        (∃ mid w3, rest = mid ++ '.' :: w3 ∧ (∀ c ∈ mid, c ≠ '.') ∧
          (∀ c ∈ w3, isTokLWS c = true))) →
       parseVersion (p ++ (w1 ++ '/' :: rest)) =
         .atom ("malformed_version".data)) ∧
    (∀ (p w1 w2 : List Char) (mc : Char) (mid w3 : List Char) (nc : Char)
       (tail : List Char),
       p.length = 3 → p.map toLowerASCII = ("sip".data) →
       (∀ c ∈ w1, isTokLWS c = true) → (∀ c ∈ w2, isTokLWS c = true) →
       isTokLWS mc = false → mc ≠ '.' → (∀ c ∈ mid, c ≠ '.') →
       (∀ c ∈ w3, isTokLWS c = true) → isTokLWS nc = false →
       parseVersion
           (p ++ (w1 ++ '/' :: (w2 ++ mc :: (mid ++ '.' :: (w3 ++ nc :: tail))))) =
         (if !isDigitB mc || !isDigitB nc then
            Term.atom ("malformed_version_number".data)
          else Term.tup2 (.int (mc.toNat - 48)) (.int (nc.toNat - 48)))) := by
  refine ⟨?_, ?_, ?_, ?_⟩
  · intro s h
    simp only [parseVersion]
    rw [if_pos h]
  · intro p w1 hp3 hpsip hw1
    constructor
    · have ht : w1.dropWhile isTokLWS = [] := dropWhile_all_true hw1
      rw [parseVersion_tail p w1 hp3 hpsip, ht]
    · intro c tail hcl hcs
      have ht : (w1 ++ c :: tail).dropWhile isTokLWS = c :: tail := by
        rw [dropWhile_all_append _ hw1]
        exact dropWhile_head_false tail hcl
      rw [parseVersion_tail_cons p _ c tail hp3 hpsip ht, if_pos hcs]
  · intro p w1 rest hp3 hpsip hw1 hshape
    have ht : (w1 ++ '/' :: rest).dropWhile isTokLWS = '/' :: rest := by
      rw [dropWhile_all_append _ hw1]
      exact dropWhile_head_false rest (by decide)
    rw [parseVersion_tail_cons p _ '/' rest hp3 hpsip ht, if_neg (by simp)]
    have hr6 : ((((rest.dropWhile isTokLWS).dropWhile
        (fun x => decide (x ≠ '.'))).drop 1).dropWhile isTokLWS) = [] := by
      rcases hshape with hall | ⟨mid, w3, rfl, hmid, hw3⟩
      · have h1 : ∀ x ∈ rest.dropWhile isTokLWS,
            (fun x => decide (x ≠ '.')) x = true :=
          fun x hx => decide_eq_true (hall x ((List.dropWhile_sublist _).subset hx))
        rw [dropWhile_all_true h1]
        rfl
      · rcases dropWhile_append_cases (p := isTokLWS) mid ('.' :: w3) with h | ⟨h, _⟩
        · have h1 : ∀ x ∈ mid.dropWhile isTokLWS,
              (fun x => decide (x ≠ '.')) x = true :=
            fun x hx => decide_eq_true (hmid x ((List.dropWhile_sublist _).subset hx))
          rw [h, dropWhile_all_append _ h1, dropWhile_head_false w3 (by decide),
            List.drop_succ_cons, List.drop_zero, dropWhile_all_true hw3]
        · rw [h, dropWhile_head_false w3 (by decide),
            dropWhile_head_false w3 (by decide), List.drop_succ_cons,
            List.drop_zero, dropWhile_all_true hw3]
    rw [hr6]
  · intro p w1 w2 mc mid w3 nc tail hp3 hpsip hw1 hw2 hmcl hmcd hmid hw3 hncl
    have ht : (w1 ++ '/' :: (w2 ++ mc :: (mid ++ '.' :: (w3 ++ nc :: tail)))).dropWhile
        isTokLWS = '/' :: (w2 ++ mc :: (mid ++ '.' :: (w3 ++ nc :: tail))) := by
      rw [dropWhile_all_append _ hw1]
      exact dropWhile_head_false _ (by decide)
    rw [parseVersion_tail_cons p _ '/' _ hp3 hpsip ht, if_neg (by simp)]
    have hr3 : (w2 ++ mc :: (mid ++ '.' :: (w3 ++ nc :: tail))).dropWhile isTokLWS
        = mc :: (mid ++ '.' :: (w3 ++ nc :: tail)) := by
      rw [dropWhile_all_append _ hw2]
      exact dropWhile_head_false _ hmcl
    rw [hr3]
    have hcons : ∀ c ∈ mc :: mid, (fun x => decide (x ≠ '.')) c = true := by
      intro c hc
      rcases List.mem_cons.mp hc with rfl | hc
      · exact decide_eq_true hmcd
      · exact decide_eq_true (hmid c hc)
    have hstep : (mc :: (mid ++ '.' :: (w3 ++ nc :: tail))).dropWhile
        (fun x => decide (x ≠ '.')) = '.' :: (w3 ++ nc :: tail) := by
      rw [show mc :: (mid ++ '.' :: (w3 ++ nc :: tail))
          = (mc :: mid) ++ '.' :: (w3 ++ nc :: tail) from rfl,
        dropWhile_all_append _ hcons]
      exact dropWhile_head_false _ (by decide)
    rw [hstep, List.drop_succ_cons, List.drop_zero]
    have hr6 : (w3 ++ nc :: tail).dropWhile isTokLWS = nc :: tail := by
      rw [dropWhile_all_append _ hw3]
      exact dropWhile_head_false _ hncl
    rw [hr6]

/-- Concrete checks of `c7_version_errors`: each malformed stage and the
success case, at fixed inputs. -/
theorem c7_version_errors_witness :
    parseVersion ("xyz/2.0".data) = .atom ("missing_status_line".data) ∧
    parseVersion ("SIP ".data) = .atom ("missing_version".data) ∧
    parseVersion ("SIP x".data) = .atom ("missing_version".data) ∧
    parseVersion ("SIP/2x".data) = .atom ("malformed_version".data) ∧
    parseVersion ("SIP/ 2.0".data) = .tup2 (.int 2) (.int 0) := by
  refine ⟨?_, ?_, ?_, ?_, ?_⟩
  · exact c7_version_errors.1 ("xyz/2.0".data) (by decide)
  · exact (c7_version_errors.2.1 ("SIP".data) [' ']
      (by decide) (by decide) (by decide)).1
  · exact (c7_version_errors.2.1 ("SIP".data) [' ']
      (by decide) (by decide) (by decide)).2 'x' [] (by decide) (by decide)
  · exact c7_version_errors.2.2.1 ("SIP".data) [] ("2x".data)
      (by decide) (by decide) (by decide) (Or.inl (by decide))
  · exact c7_version_errors.2.2.2 ("SIP".data) [] [' '] '2' [] [] '0' []
      (by decide) (by decide) (by decide) (by decide) (by decide) (by decide)
      (by decide) (by decide) (by decide)

/-- Claim C8 is false as stated: for the CSeq value `42 FOO`, whose method
is not in the known set, the parser returns the error atom
`unknown_method` instead of keeping the lowercase byte string `foo`. -/
theorem c8_counterexample :
    parseCseq ("42 FOO".data) = .atom ("unknown_method".data) ∧
    Term.atom ("unknown_method".data) ≠ .tup2 (.int 42) (.str ("foo".data)) := by
  exact ⟨by rfl, by decide⟩

/-- Claim C8 (amended): for every CSeq value of shape `integer SP method`,
the method token is canonicalized to lowercase (with `-` mapped to `_`) and
returned as that atom paired with the integer when the canonical form is a
known atom; an unknown method is the error atom `unknown_method`, not a
kept byte string. -/
theorem c8_cseq_method :
    ∀ (num meth : List Char),
      num ≠ [] → num.all isDigitB = true → digitsVal num ≤ 2 ^ 31 - 1 →
      meth ≠ [] → (∀ c ∈ meth, isTokLWS c = false) →
      parseCseq (num ++ ' ' :: meth) =
        (if existingAtom (canonicalName meth) then
           Term.tup2 (.int ((digitsVal num : Int))) (.atom (canonicalName meth))
         else Term.atom ("unknown_method".data)) := by
  intro num meth hne hall hfit hmne hmlws
  obtain ⟨d, nt, rfl⟩ := List.exists_cons_of_ne_nil hne
  obtain ⟨m0, mt, rfl⟩ := List.exists_cons_of_ne_nil hmne
  have hd : isDigitB d = true := List.all_eq_true.mp hall d (by simp)
  have hdl : isTokLWS d = false := digit_not_lws hd
  have hnum_lws : ∀ c ∈ d :: nt, (fun c => !isTokLWS c) c = true := by
    intro c hc
    have := digit_not_lws (List.all_eq_true.mp hall c hc)
    simp [this]
  have hr : ((d :: nt) ++ ' ' :: (m0 :: mt)).dropWhile isTokLWS =
      (d :: nt) ++ ' ' :: (m0 :: mt) := by
    rw [List.cons_append]
    exact dropWhile_head_false _ hdl
  have hint : ((d :: nt) ++ ' ' :: (m0 :: mt)).takeWhile (fun c => !isTokLWS c) =
      d :: nt := by
    rw [takeWhile_all_append _ hnum_lws, takeWhile_head_false _ (by decide),
      List.append_nil]
  have hrest : ((d :: nt) ++ ' ' :: (m0 :: mt)).dropWhile (fun c => !isTokLWS c) =
      ' ' :: (m0 :: mt) := by
    rw [dropWhile_all_append _ hnum_lws]
    exact dropWhile_head_false _ (by decide)
  have hr2 : (' ' :: (m0 :: mt)).dropWhile isTokLWS = m0 :: mt := by
    rw [List.dropWhile_cons, if_pos (by decide)]
    exact dropWhile_all_false hmlws
  have hmtake : (m0 :: mt).takeWhile (fun c => !isTokLWS c) = m0 :: mt :=
    takeWhile_all (by intro c hc; simp [hmlws c hc])
  simp only [parseCseq]
  rw [hr, show ((d :: nt) ++ ' ' :: (m0 :: mt)).isEmpty = false from rfl,
    if_neg Bool.false_ne_true, hint, hrest, hr2, hmtake,
    stringToInt_digits hne hall, if_pos hfit]
  rfl

/-- Concrete checks of `c8_cseq_method`: a known and an unknown method. -/
theorem c8_cseq_method_witness :
    parseCseq ("42 INVITE".data) = .tup2 (.int 42) (.atom ("invite".data)) ∧
    parseCseq ("7 FOO".data) = .atom ("unknown_method".data) := by
  constructor
  · exact c8_cseq_method ("42".data) ("INVITE".data)
      (by decide) (by decide) (by decide) (by decide) (by decide)
  · exact c8_cseq_method ("7".data) ("FOO".data)
      (by decide) (by decide) (by decide) (by decide) (by decide)

/-- Claim C9 is false as stated: `TEXT/Html` parses to the verbatim pair
`("TEXT", "Html")`; the type and subtype are not ASCII-lowercased. -/
theorem c9_counterexample :
    parseTypeSubtype ("TEXT/Html".data) =
      (.tup2 (.str ("TEXT".data)) (.str ("Html".data)), []) ∧
    ("TEXT".data) ≠ ("text".data) := by
  exact ⟨by rfl, by decide⟩

/-- Claim C9 (amended): for every type/subtype header value of shape
`token "/" token` (with optional LWS around the tokens), the parser
outputs the type and the subtype byte-for-byte as written — their case is
preserved, not ASCII-lowercased — and an input that is empty after LWS
yields the empty tuple and is considered valid. -/
theorem c9_type_subtype :
    (∀ w : List Char, (∀ c ∈ w, isTokLWS c = true) →
       parseTypeSubtype w = (.tup0, [])) ∧
    (∀ w1 ty w2 w3 st w4 : List Char,
       (∀ c ∈ w1, isTokLWS c = true) → (∀ c ∈ w2, isTokLWS c = true) →
       (∀ c ∈ w3, isTokLWS c = true) → (∀ c ∈ w4, isTokLWS c = true) →
       isTokenStr ty = true → isTokenStr st = true →
       parseTypeSubtype (w1 ++ (ty ++ (w2 ++ '/' :: (w3 ++ (st ++ w4))))) =
         (.tup2 (.str ty) (.str st), w4)) := by
  constructor
  · intro w hw
    simp only [parseTypeSubtype]
    rw [dropWhile_all_true hw, show ([] : List Char).isEmpty = true from rfl,
      if_pos rfl]
  · intro w1 ty w2 w3 st w4 hw1 hw2 hw3 hw4 hty hst
    obtain ⟨t0, tt, rfl⟩ := List.exists_cons_of_ne_nil (isTokenStr_facts hty).1
    obtain ⟨s0, stt, rfl⟩ := List.exists_cons_of_ne_nil (isTokenStr_facts hst).1
    have htytok := (isTokenStr_facts hty).2
    have hsttok := (isTokenStr_facts hst).2
    have ht0 : isTokLWS t0 = false := (tokenChar_facts (htytok t0 (by simp))).2.1
    have hs0 : isTokLWS s0 = false := (tokenChar_facts (hsttok s0 (by simp))).2.1
    have hty1 : ∀ c ∈ t0 :: tt, (fun c => !(isTokLWS c || c = '/')) c = true := by
      intro c hc
      obtain ⟨-, hlws, -, -, -, -, hslash⟩ := tokenChar_facts (htytok c hc)
      simp [hlws, hslash]
    have hst1 : ∀ c ∈ s0 :: stt, (fun c => !(isTokLWS c || c = ';')) c = true := by
      intro c hc
      obtain ⟨-, hlws, -, -, -, hsemi, -⟩ := tokenChar_facts (hsttok c hc)
      simp [hlws, hsemi]
    have hw4f : ∀ c ∈ w4, (fun c => !(isTokLWS c || c = ';')) c = false := by
      intro c hc
      simp [hw4 c hc]
    have hr : (w1 ++ ((t0 :: tt) ++ (w2 ++ '/' :: (w3 ++ ((s0 :: stt) ++ w4))))).dropWhile
        isTokLWS = (t0 :: tt) ++ (w2 ++ '/' :: (w3 ++ ((s0 :: stt) ++ w4))) := by
      rw [dropWhile_all_append _ hw1, List.cons_append]
      exact dropWhile_head_false _ ht0
    have htkR1 : (w2 ++ '/' :: (w3 ++ ((s0 :: stt) ++ w4))).takeWhile
        (fun c => !(isTokLWS c || c = '/')) = [] := by
      cases w2 with
      | nil => exact takeWhile_head_false _ (by decide)
      | cons a t => exact takeWhile_head_false _ (by simp [hw2 a (by simp)])
    have hdrR1 : (w2 ++ '/' :: (w3 ++ ((s0 :: stt) ++ w4))).dropWhile
        (fun c => !(isTokLWS c || c = '/')) =
        w2 ++ '/' :: (w3 ++ ((s0 :: stt) ++ w4)) := by
      cases w2 with
      | nil => exact dropWhile_head_false _ (by decide)
      | cons a t =>
        rw [List.cons_append]
        exact dropWhile_head_false _ (by simp [hw2 a (by simp)])
    have htake1 : ((t0 :: tt) ++ (w2 ++ '/' :: (w3 ++ ((s0 :: stt) ++ w4)))).takeWhile
        (fun c => !(isTokLWS c || c = '/')) = t0 :: tt := by
      rw [takeWhile_all_append _ hty1, htkR1, List.append_nil]
    have hdrop1 : ((t0 :: tt) ++ (w2 ++ '/' :: (w3 ++ ((s0 :: stt) ++ w4)))).dropWhile
        (fun c => !(isTokLWS c || c = '/')) =
        w2 ++ '/' :: (w3 ++ ((s0 :: stt) ++ w4)) := by
      rw [dropWhile_all_append _ hty1, hdrR1]
    have hslash_w2 : ∀ c ∈ w2, (fun c => decide (c ≠ '/')) c = true :=
      fun c hc => decide_eq_true (isTokLWS_facts (hw2 c hc)).1
    have hr4a : (w2 ++ '/' :: (w3 ++ ((s0 :: stt) ++ w4))).dropWhile
        (fun c => decide (c ≠ '/')) = '/' :: (w3 ++ ((s0 :: stt) ++ w4)) := by
      rw [dropWhile_all_append _ hslash_w2]
      exact dropWhile_head_false _ (by decide)
    have hr4b : (w3 ++ ((s0 :: stt) ++ w4)).dropWhile isTokLWS =
        (s0 :: stt) ++ w4 := by
      rw [dropWhile_all_append _ hw3, List.cons_append]
      exact dropWhile_head_false _ hs0
    have htake2 : ((s0 :: stt) ++ w4).takeWhile
        (fun c => !(isTokLWS c || c = ';')) = s0 :: stt := by
      rw [takeWhile_all_append _ hst1, takeWhile_all_false hw4f, List.append_nil]
    have hdrop2 : ((s0 :: stt) ++ w4).dropWhile
        (fun c => !(isTokLWS c || c = ';')) = w4 := by
      rw [dropWhile_all_append _ hst1]
      exact dropWhile_all_false hw4f
    simp only [parseTypeSubtype]
    rw [hr, show ((t0 :: tt) ++ (w2 ++ '/' :: (w3 ++ ((s0 :: stt) ++ w4)))).isEmpty
        = false from rfl, if_neg Bool.false_ne_true, htake1, hdrop1, hty,
      Bool.not_true, if_neg Bool.false_ne_true, hr4a, List.drop_succ_cons,
      List.drop_zero, hr4b, show ((s0 :: stt) ++ w4).isEmpty = false from rfl,
      if_neg Bool.false_ne_true, htake2, hdrop2, hst, Bool.not_true,
      if_neg Bool.false_ne_true]

/-- Concrete checks of `c9_type_subtype`: an all-LWS value and a
mixed-case `token/token` value whose case survives. -/
theorem c9_type_subtype_witness :
    parseTypeSubtype (" ".data) = (.tup0, []) ∧
    parseTypeSubtype (" TEXT/ Html ".data) =
      (.tup2 (.str ("TEXT".data)) (.str ("Html".data)), [' ']) := by
  constructor
  · exact c9_type_subtype.1 (" ".data) (by decide)
  · exact c9_type_subtype.2 [' '] ("TEXT".data) [] [' '] ("Html".data) [' ']
      (by decide) (by decide) (by decide) (by decide) (by decide) (by decide)

/-- Claim C10 is false as stated: on the input `SIP/2.0 ` (a valid version
followed by one space, no line terminator) the whole input is the first
line, `line_end = 8`, and the space-skipping loop reads index 8 — the byte
at `line_end`, the string's NUL sentinel — which does not lie strictly
inside `[line_begin, line_end)`. -/
theorem c10_counterexample :
    ("SIP/2.0 ".data).length = 8 ∧
    8 ∈ (parseStatusLineR ("SIP/2.0 ".data) 8).2 ∧ ¬(8 < 8) := by
  exact ⟨by rfl, by decide, by decide⟩

theorem length_takeWhile {p : Char → Bool} (l : List Char) :
    (l.takeWhile p).length ≤ l.length := by
  induction l with
  | nil => simp
  | cons a t ih =>
    rw [List.takeWhile_cons]
    by_cases hp : p a = true
    · rw [if_pos hp]
      simpa using ih
    · rw [if_neg hp]
      simp

/-- A scanning loop stopped by a refuting byte at index `le` never reads
past `le`, provided it starts at or before `le` with enough fuel. -/
theorem skipWhileR_bound (buf : List Char) (p : Char → Bool) (le : Nat)
    (hple : p (bufGet buf le) = false) :
    ∀ (fuel i : Nat), i ≤ le → le - i < fuel →
      (skipWhileR buf p fuel i).1 ≤ le ∧
      ∀ j ∈ (skipWhileR buf p fuel i).2, j ≤ le := by
  intro fuel
  induction fuel with
  | zero =>
    intro i hi hf
    omega
  | succ n ih =>
    intro i hi hf
    by_cases hp : p (bufGet buf i) = true
    · have hine : i ≠ le := by
        intro h
        rw [h, hple] at hp
        exact Bool.false_ne_true hp
      have hrec := ih (i + 1) (by omega) (by omega)
      have heq : skipWhileR buf p (n + 1) i =
          ((skipWhileR buf p n (i + 1)).1, i :: (skipWhileR buf p n (i + 1)).2) := by
        simp [skipWhileR, hp]
      refine ⟨by rw [heq]; exact hrec.1, ?_⟩
      intro j hj
      rw [heq] at hj
      rcases List.mem_cons.mp hj with rfl | hj
      · exact hi
      · exact hrec.2 j hj
    · have hp' : p (bufGet buf i) = false := by simpa using hp
      have heq : skipWhileR buf p (n + 1) i = (i, [i]) := by
        simp [skipWhileR, hp']
      rw [heq]
      refine ⟨hi, ?_⟩
      intro j hj
      rw [List.mem_singleton] at hj
      omega

/-- A scanning loop over a run of `m` satisfying bytes stops at `i + m`
and reads exactly the indices `i, …, i + m`. -/
theorem skipWhileR_run (buf : List Char) (p : Char → Bool) :
    ∀ (m fuel i : Nat), (∀ j, j < m → p (bufGet buf (i + j)) = true) →
      p (bufGet buf (i + m)) = false → m < fuel →
      skipWhileR buf p fuel i = (i + m, List.range' i (m + 1)) := by
  intro m
  induction m with
  | zero =>
    intro fuel i hrun hstop hf
    cases fuel with
    | zero => omega
    | succ n =>
      have hp : p (bufGet buf i) = false := by simpa using hstop
      simp [skipWhileR, hp, List.range'_one]
  | succ m ih =>
    intro fuel i hrun hstop hf
    cases fuel with
    | zero => omega
    | succ n =>
      have hp : p (bufGet buf i) = true := by
        have := hrun 0 (by omega)
        simpa using this
      have hrec := ih n (i + 1)
        (fun j hj => by
          have := hrun (j + 1) (by omega)
          have h2 : i + (j + 1) = i + 1 + j := by omega
          rw [h2] at this
          exact this)
        (by
          have h2 : i + 1 + m = i + (m + 1) := by omega
          rw [h2]
          exact hstop)
        (by omega)
      have heq : skipWhileR buf p (n + 1) i =
          ((skipWhileR buf p n (i + 1)).1, i :: (skipWhileR buf p n (i + 1)).2) := by
        simp [skipWhileR, hp]
      rw [heq, hrec]
      have h3 : i + 1 + m = i + (m + 1) := by omega
      rw [h3, show List.range' i (m + 1 + 1) = i :: List.range' (i + 1) (m + 1) from
        List.range'_succ i (m + 1) 1]

/-- Claim C10 (amended): every index read by `ParseStatusLine`'s unbounded
scanning loops lies in the closed range `[line_begin, line_end]` — the byte
at `line_end` itself (the line terminator, or the buffer's NUL sentinel
when the line is the whole input) is read, as the counterexample shows, but
nothing past it — provided that byte is neither a space nor a digit, which
is what stops the loops; and for a first line that is a valid version
followed only by spaces up to the end of the whole input, the function
terminates and returns `empty_status_code`. -/
theorem c10_read_bounds :
    (∀ (buf : List Char) (le : Nat), le ≤ buf.length →
       isDigitB (bufGet buf le) = false → bufGet buf le ≠ ' ' →
       ∀ i ∈ (parseStatusLineR buf le).2, i ≤ le) ∧
    (∀ n : Nat,
       (parseStatusLineR (("SIP/2.0".data) ++ List.replicate (n + 1) ' ')
           (7 + (n + 1))).1 = .atom ("empty_status_code".data)) := by
  constructor
  · intro buf le hle hdig hsp i hi
    have hsp' : (fun c => decide (c = ' ')) (bufGet buf le) = false := by
      simp [hsp]
    have hksle : ((buf.take le).takeWhile (fun c => decide (c ≠ ' '))).length ≤ le := by
      have h1 := length_takeWhile (p := fun c => decide (c ≠ ' ')) (buf.take le)
      have h2 : (buf.take le).length ≤ le := by
        rw [List.length_take]
        exact min_le_left le buf.length
      omega
    have hb1 := skipWhileR_bound buf (fun c => decide (c = ' ')) le hsp'
      (buf.length + 1) ((buf.take le).takeWhile (fun c => decide (c ≠ ' '))).length
      hksle (by omega)
    have hb2 := skipWhileR_bound buf isDigitB le hdig (buf.length + 1)
      (skipWhileR buf (fun c => decide (c = ' ')) (buf.length + 1)
        ((buf.take le).takeWhile (fun c => decide (c ≠ ' '))).length).1
      hb1.1 (by omega)
    have hb3 := skipWhileR_bound buf (fun c => decide (c = ' ')) le hsp'
      (buf.length + 1)
      (skipWhileR buf isDigitB (buf.length + 1)
        (skipWhileR buf (fun c => decide (c = ' ')) (buf.length + 1)
          ((buf.take le).takeWhile (fun c => decide (c ≠ ' '))).length).1).1
      hb2.1 (by omega)
    simp only [parseStatusLineR] at hi
    by_cases hA : (parseVersion (buf.take le)).isAtom = true
    · rw [if_pos hA] at hi
      simp at hi
    · rw [if_neg hA] at hi
      by_cases hk : ((buf.take le).takeWhile (fun c => decide (c ≠ ' '))).length
          = (buf.take le).length
      · rw [if_pos hk] at hi
        simp at hi
      · rw [if_neg hk] at hi
        by_cases he : (skipWhileR buf isDigitB (buf.length + 1)
            (skipWhileR buf (fun c => decide (c = ' ')) (buf.length + 1)
              ((buf.take le).takeWhile (fun c => decide (c ≠ ' '))).length).1).1
            = (skipWhileR buf (fun c => decide (c = ' ')) (buf.length + 1)
              ((buf.take le).takeWhile (fun c => decide (c ≠ ' '))).length).1
        · rw [if_pos he] at hi
          have hi' : i ∈ (skipWhileR buf (fun c => decide (c = ' ')) (buf.length + 1)
              ((buf.take le).takeWhile (fun c => decide (c ≠ ' '))).length).2 ++
              (skipWhileR buf isDigitB (buf.length + 1)
                (skipWhileR buf (fun c => decide (c = ' ')) (buf.length + 1)
                  ((buf.take le).takeWhile (fun c => decide (c ≠ ' '))).length).1).2 := hi
          rcases List.mem_append.mp hi' with h | h
          · exact hb1.2 i h
          · exact hb2.2 i h
        · rw [if_neg he] at hi
          cases hst : stringToInt ((buf.take (skipWhileR buf isDigitB (buf.length + 1)
              (skipWhileR buf (fun c => decide (c = ' ')) (buf.length + 1)
                ((buf.take le).takeWhile (fun c => decide (c ≠ ' '))).length).1).1).drop
              (skipWhileR buf (fun c => decide (c = ' ')) (buf.length + 1)
                ((buf.take le).takeWhile (fun c => decide (c ≠ ' '))).length).1) with
          | none =>
            rw [hst] at hi
            have hi' : i ∈ (skipWhileR buf (fun c => decide (c = ' ')) (buf.length + 1)
                ((buf.take le).takeWhile (fun c => decide (c ≠ ' '))).length).2 ++
                (skipWhileR buf isDigitB (buf.length + 1)
                  (skipWhileR buf (fun c => decide (c = ' ')) (buf.length + 1)
                    ((buf.take le).takeWhile (fun c => decide (c ≠ ' '))).length).1).2 := hi
            rcases List.mem_append.mp hi' with h | h
            · exact hb1.2 i h
            · exact hb2.2 i h
          | some code =>
            rw [hst] at hi
            have hi' : i ∈ ((skipWhileR buf (fun c => decide (c = ' ')) (buf.length + 1)
                ((buf.take le).takeWhile (fun c => decide (c ≠ ' '))).length).2 ++
                (skipWhileR buf isDigitB (buf.length + 1)
                  (skipWhileR buf (fun c => decide (c = ' ')) (buf.length + 1)
                    ((buf.take le).takeWhile (fun c => decide (c ≠ ' '))).length).1).2) ++
                (skipWhileR buf (fun c => decide (c = ' ')) (buf.length + 1)
                  (skipWhileR buf isDigitB (buf.length + 1)
                    (skipWhileR buf (fun c => decide (c = ' ')) (buf.length + 1)
                      ((buf.take le).takeWhile (fun c => decide (c ≠ ' '))).length).1).1).2 := hi
            rcases List.mem_append.mp hi' with h | h
            · rcases List.mem_append.mp h with h2 | h2
              · exact hb1.2 i h2
              · exact hb2.2 i h2
            · exact hb3.2 i h
  · intro n
    have hlen : (("SIP/2.0".data) ++ List.replicate (n + 1) ' ').length = 7 + (n + 1) := by
      rw [List.length_append, List.length_replicate]
      rfl
    have htk : (("SIP/2.0".data) ++ List.replicate (n + 1) ' ').take (7 + (n + 1))
        = ("SIP/2.0".data) ++ List.replicate (n + 1) ' ' := by
      rw [← hlen]
      exact List.take_length _
    have ht : (("/2.0".data) ++ List.replicate (n + 1) ' ').dropWhile isTokLWS
        = '/' :: (("2.0".data) ++ List.replicate (n + 1) ' ') := by
      rw [show ("/2.0".data) ++ List.replicate (n + 1) ' '
          = '/' :: (("2.0".data) ++ List.replicate (n + 1) ' ') from rfl]
      exact dropWhile_head_false _ (by decide)
    have hver : parseVersion (("SIP/2.0".data) ++ List.replicate (n + 1) ' ')
        = Term.tup2 (.int 2) (.int 0) := by
      rw [show ("SIP/2.0".data) ++ List.replicate (n + 1) ' '
          = ("SIP".data) ++ (("/2.0".data) ++ List.replicate (n + 1) ' ') from rfl,
        parseVersion_tail_cons ("SIP".data) (("/2.0".data) ++ List.replicate (n + 1) ' ')
          '/' (("2.0".data) ++ List.replicate (n + 1) ' ') (by decide) (by decide) ht,
        if_neg (by simp)]
      rfl
    have htw : (("SIP/2.0".data) ++ List.replicate (n + 1) ' ').takeWhile
        (fun c => decide (c ≠ ' ')) = ("SIP/2.0".data) := by
      rw [takeWhile_all_append _ (by decide),
        show (List.replicate (n + 1) ' ').takeWhile (fun c => decide (c ≠ ' ')) = [] from by
          rw [List.replicate_succ]
          exact takeWhile_head_false _ (by decide),
        List.append_nil]
    have hrun : ∀ j, j < n + 1 →
        (fun c => decide (c = ' '))
          (bufGet (("SIP/2.0".data) ++ List.replicate (n + 1) ' ') (7 + j)) = true := by
      intro j hj
      have hb : bufGet (("SIP/2.0".data) ++ List.replicate (n + 1) ' ') (7 + j) = ' ' := by
        show ((("SIP/2.0".data) ++ List.replicate (n + 1) ' ').getD (7 + j) '\x00') = ' '
        rw [List.getD_eq_getElem?_getD, List.getElem?_append_right (by
          rw [show (("SIP/2.0".data)).length = 7 from rfl]
          omega),
          show 7 + j - (("SIP/2.0".data)).length = j from by
            rw [show (("SIP/2.0".data)).length = 7 from rfl]
            omega,
          List.getElem?_replicate, if_pos hj]
        rfl
      rw [hb]
      rfl
    have hstop1 : (fun c => decide (c = ' '))
        (bufGet (("SIP/2.0".data) ++ List.replicate (n + 1) ' ') (7 + (n + 1))) = false := by
      have hb : bufGet (("SIP/2.0".data) ++ List.replicate (n + 1) ' ') (7 + (n + 1))
          = '\x00' := by
        show ((("SIP/2.0".data) ++ List.replicate (n + 1) ' ').getD (7 + (n + 1)) '\x00') = '\x00'
        rw [List.getD_eq_getElem?_getD, List.getElem?_eq_none (by rw [hlen])]
        rfl
      rw [hb]
      rfl
    have hstop2 : isDigitB
        (bufGet (("SIP/2.0".data) ++ List.replicate (n + 1) ' ') (7 + (n + 1) + 0)) = false := by
      have hb : bufGet (("SIP/2.0".data) ++ List.replicate (n + 1) ' ') (7 + (n + 1) + 0)
          = '\x00' := by
        show ((("SIP/2.0".data) ++ List.replicate (n + 1) ' ').getD (7 + (n + 1) + 0) '\x00')
          = '\x00'
        rw [List.getD_eq_getElem?_getD, List.getElem?_eq_none (by rw [hlen]; omega)]
        rfl
      rw [hb]
      rfl
    have hs1 : skipWhileR (("SIP/2.0".data) ++ List.replicate (n + 1) ' ')
        (fun c => decide (c = ' ')) (7 + (n + 1) + 1) 7
        = (7 + (n + 1), List.range' 7 (n + 1 + 1)) :=
      skipWhileR_run _ _ (n + 1) (7 + (n + 1) + 1) 7 hrun hstop1 (by omega)
    have hs2 : skipWhileR (("SIP/2.0".data) ++ List.replicate (n + 1) ' ')
        isDigitB (7 + (n + 1) + 1) (7 + (n + 1))
        = (7 + (n + 1) + 0, List.range' (7 + (n + 1)) (0 + 1)) :=
      skipWhileR_run _ _ 0 (7 + (n + 1) + 1) (7 + (n + 1))
        (fun j hj => absurd hj (by omega)) hstop2 (by omega)
    simp only [parseStatusLineR]
    rw [htk, hver, show (Term.tup2 (.int 2) (.int 0)).isAtom = false from rfl,
      if_neg Bool.false_ne_true, htw, show (("SIP/2.0".data)).length = 7 from rfl, hlen,
      if_neg (show ¬(7 = 7 + (n + 1)) from by omega)]
    simp only [hs1, hs2, Nat.add_zero]
    rfl

/-- Concrete checks of `c10_read_bounds`: the read bound at a line with a
trailing byte, and the `empty_status_code` result for `SIP/2.0 `. -/
theorem c10_read_bounds_witness :
    (8 ≤ ("SIP/2.0 x".data).length ∧
     isDigitB (bufGet ("SIP/2.0 x".data) 8) = false ∧
     bufGet ("SIP/2.0 x".data) 8 ≠ ' ' ∧
     ∀ i ∈ (parseStatusLineR ("SIP/2.0 x".data) 8).2, i ≤ 8) ∧
    (parseStatusLineR ("SIP/2.0 ".data) 8).1 = .atom ("empty_status_code".data) := by
  refine ⟨⟨by decide, by decide, by decide, ?_⟩, ?_⟩
  · exact c10_read_bounds.1 ("SIP/2.0 x".data) 8 (by decide) (by decide) (by decide)
  · exact c10_read_bounds.2 0

end Sippet
